import Mathlib

/-!
# Word-embedding kernels of `BIDMach_CPUMACH.c`

Shallow embedding of the four JNI kernels `word2vecConv`, `word2vec`,
`word2vecFwd` and `word2vecBwd`.

Modelling conventions.

* A `float *` buffer is a total map `Nat → R` from flat offsets to values; a
  store `M[p] = v` is `Function.update M p v`.  The scalar type `R` is any
  linearly ordered field: `float` arithmetic is idealised to exact arithmetic,
  and theorems about `exp` are stated at `R = ℝ` with `Real.exp`.
* The libm function `exp` is not part of the source file, it is the parameter
  `ex` of every kernel that calls it.
* The `jint *` id arrays are read-only maps `Nat → Nat` (the caller contract
  puts every id in `[0, vocabSize)`), sizes are natural numbers.  Under the
  caller contract every flat offset is below the length of a Java array, so no
  `int` computation wraps.
* `#pragma omp parallel for` is read with one thread: the outer loop runs its
  iterations in increasing order.
* Every `for` loop of the source is a `forLoop` with the same bounds, in the
  same nesting, and every assignment is one field update of the memory record.
-/

namespace BIDMach

/-- Counted loop: `for (t = 0; t < n; t++) s = body t s`. -/
def forLoop {σ : Type} (n : Nat) (body : Nat → σ → σ) (s : σ) : σ :=
  match n with
  | 0 => s
  | m + 1 => body m (forLoop m body s)

/-- The three float buffers a kernel addresses.  `C` is the argument `jC` of
`word2vecFwd` and `word2vecBwd` and the `malloc`ed scratch of `word2vec`. -/
@[ext] structure Mem (R : Type) where
  A : Nat → R
  B : Nat → R
  C : Nat → R

/-- Buffers of `word2vecConv`: `A`, `B` and the two `malloc`ed scratch buffers
`C` (length `2*skip+1`) and `Btmp` (length `nrows`). -/
@[ext] structure ConvMem (R : Type) where
  A : Nat → R
  B : Nat → R
  C : Nat → R
  Btmp : Nat → R

section Kernels

variable {R : Type} [LinearOrderedField R]

/-- The inner product loop shared by all kernels:
`cv = 0; for (c = 0; c < nrows; c++) cv += A[c + ia] * B[c + ib];`. -/
def dot (nrows : Nat) (A B : Nat → R) (ia ib : Nat) : R :=
  forLoop nrows (fun c cv => cv + A (c + ia) * B (c + ib)) 0

/-- The `if (cv > 16.0f) ... else if (cv < -16.0f) ... else ...` block of
`word2vecConv` (lines 30-37) and `word2vec` (lines 95-102). -/
def clampedLogistic (ex : R → R) (cv : R) : R :=
  if cv > 16 then 1
  else if cv < -16 then 0
  else 1 / (1 + ex cv)

/-! ### `word2vecFwd` (lines 138-171) -/

/-- Body of the `k` loop of `word2vecFwd` (lines 155-161). -/
def fwdCell (nrows nwa nwb : Nat) (WA WB : Nat → Nat) (i j k : Nat) (m : Mem R) : Mem R :=
  let ia := nrows * WA (j + i * nwa)
  let ib := nrows * WB (k + i * nwb)
  let sum := dot nrows m.A m.B ia ib
  let coff := nwa * (k + nwb * i)
  { m with C := Function.update m.C (j + coff) sum }

/-- Body of the `i` loop of `word2vecFwd` (lines 152-163). -/
def fwdColumn (nrows nwa nwb : Nat) (WA WB : Nat → Nat) (i : Nat) (m : Mem R) : Mem R :=
  forLoop nwa (fun j m => forLoop nwb (fun k m => fwdCell nrows nwa nwb WA WB i j k m) m) m

/-- The kernel `Java_edu_berkeley_bid_CPUMACH_word2vecFwd`. -/
def word2vecFwd (nrows ncols nwa nwb : Nat) (WA WB : Nat → Nat) (m : Mem R) : Mem R :=
  forLoop ncols (fun i m => fwdColumn nrows nwa nwb WA WB i m) m

/-- Store log of `word2vecFwd`: the loop nest of lines 151-163 with every store
`C[j + coff] = sum` of line 161 recorded, in program order, as the pair of its
index and its value instead of being executed.  `A` and `B` are the buffers
the kernel reads. -/
def fwdStores (nrows ncols nwa nwb : Nat) (WA WB : Nat → Nat) (A B : Nat → R) :
    List (Nat × R) :=
  forLoop ncols (fun i l =>
    forLoop nwa (fun j l =>
      forLoop nwb (fun k l =>
        l ++ [(j + nwa * (k + nwb * i),
          dot nrows A B (nrows * WA (j + i * nwa)) (nrows * WB (k + i * nwb)))]) l) l) []

/-- Executing a store log on a buffer: the entry `(p, v)` is the store
`C[p] = v`. -/
def replayStores (l : List (Nat × R)) (C : Nat → R) : Nat → R :=
  l.foldl (fun C p => Function.update C p.1 p.2) C

/-! ### `word2vec` (lines 69-136) -/

/-- Body of the `k` loop of the score pass of `word2vec` (lines 89-104). -/
def pairScore (ex : R → R) (nrows nwa nwb : Nat) (WA WB : Nat → Nat) (i j k : Nat)
    (m : Mem R) : Mem R :=
  let ia := nrows * WA (j + i * nwa)
  let ib := nrows * WB (k + i * nwb)
  let cv := clampedLogistic ex (dot nrows m.A m.B ia ib)
  { m with C := Function.update m.C (j + k * nwa) (-cv) }

/-- Score pass of one column of `word2vec` (lines 86-106). -/
def pairScores (ex : R → R) (nrows nwa nwb : Nat) (WA WB : Nat → Nat) (i : Nat)
    (m : Mem R) : Mem R :=
  forLoop nwa (fun j m => forLoop nwb (fun k m => pairScore ex nrows nwa nwb WA WB i j k m) m) m

/-- The loop `for (c = 0; c < nrows; c++) A[c + ia] += cv * B[c + ib];`. -/
def axpyA (nrows ia ib : Nat) (cv : R) (m : Mem R) : Mem R :=
  forLoop nrows
    (fun c m => { m with A := Function.update m.A (c + ia) (m.A (c + ia) + cv * m.B (c + ib)) }) m

/-- The loop `for (c = 0; c < nrows; c++) B[c + ib] += cv * A[c + ia];`. -/
def axpyB (nrows ia ib : Nat) (cv : R) (m : Mem R) : Mem R :=
  forLoop nrows
    (fun c m => { m with B := Function.update m.B (c + ib) (m.B (c + ib) + cv * m.A (c + ia)) }) m

/-- Update pass 1 of one column of `word2vec` (lines 108-117). -/
def pairUpdateA (nrows nwa nwb : Nat) (WA WB : Nat → Nat) (lrate : R) (i : Nat)
    (m : Mem R) : Mem R :=
  forLoop nwa (fun j m =>
    forLoop nwb (fun k m =>
      axpyA nrows (nrows * WA (j + i * nwa)) (nrows * WB (k + i * nwb))
        (lrate * m.C (j + nwa * k)) m) m) m

/-- Update pass 2 of one column of `word2vec` (lines 119-128). -/
def pairUpdateB (nrows nwa nwb : Nat) (WA WB : Nat → Nat) (lrate : R) (i : Nat)
    (m : Mem R) : Mem R :=
  forLoop nwb (fun k m =>
    forLoop nwa (fun j m =>
      axpyB nrows (nrows * WA (j + i * nwa)) (nrows * WB (k + i * nwb))
        (lrate * m.C (j + nwa * k)) m) m) m

/-- Body of the `i` loop of `word2vec` (lines 86-128). -/
def pairColumn (ex : R → R) (nrows nwa nwb : Nat) (WA WB : Nat → Nat) (lrate : R) (i : Nat)
    (m : Mem R) : Mem R :=
  pairUpdateB nrows nwa nwb WA WB lrate i
    (pairUpdateA nrows nwa nwb WA WB lrate i (pairScores ex nrows nwa nwb WA WB i m))

/-- The kernel `Java_edu_berkeley_bid_CPUMACH_word2vec`.  `m.C` is the content
of the freshly allocated scratch buffer. -/
def word2vec (ex : R → R) (nrows ncols nwa nwb : Nat) (WA WB : Nat → Nat) (lrate : R)
    (m : Mem R) : Mem R :=
  forLoop ncols (fun i m => pairColumn ex nrows nwa nwb WA WB lrate i m) m

/-! ### `word2vecBwd` (lines 173-220) -/

/-- The loop `for (c = 0; c < nrows; c++) A[c + ia] = 0;`. -/
def zeroA (nrows ia : Nat) (m : Mem R) : Mem R :=
  forLoop nrows (fun c m => { m with A := Function.update m.A (c + ia) 0 }) m

/-- The loop `for (c = 0; c < nrows; c++) B[c + ib] = 0;`. -/
def zeroB (nrows ib : Nat) (m : Mem R) : Mem R :=
  forLoop nrows (fun c m => { m with B := Function.update m.B (c + ib) 0 }) m

/-- Body of the first `j` loop of `word2vecBwd` (lines 189-199): clear the
column of `A` named by context slot `j`, then add to it over the paired slots. -/
def bwdSlotA (nrows nwa nwb : Nat) (WA WB : Nat → Nat) (lrate : R) (i j : Nat)
    (m : Mem R) : Mem R :=
  forLoop nwb (fun k m =>
    axpyA nrows (nrows * WA (j + i * nwa)) (nrows * WB (k + i * nwb))
      (lrate * m.C (j + nwa * (k + nwb * i))) m)
    (zeroA nrows (nrows * WA (j + i * nwa)) m)

/-- Body of the second `k` loop of `word2vecBwd` (lines 202-212): clear the
column of `B` named by paired slot `k`, then add to it over the context slots. -/
def bwdSlotB (nrows nwa nwb : Nat) (WA WB : Nat → Nat) (lrate : R) (i k : Nat)
    (m : Mem R) : Mem R :=
  forLoop nwa (fun j m =>
    axpyB nrows (nrows * WA (j + i * nwa)) (nrows * WB (k + i * nwb))
      (lrate * m.C (j + nwa * (k + nwb * i))) m)
    (zeroB nrows (nrows * WB (k + i * nwb)) m)

/-- First half of one column of `word2vecBwd` (lines 188-200). -/
def bwdA (nrows nwa nwb : Nat) (WA WB : Nat → Nat) (lrate : R) (i : Nat) (m : Mem R) : Mem R :=
  forLoop nwa (fun j m => bwdSlotA nrows nwa nwb WA WB lrate i j m) m

/-- Second half of one column of `word2vecBwd` (lines 201-213). -/
def bwdB (nrows nwa nwb : Nat) (WA WB : Nat → Nat) (lrate : R) (i : Nat) (m : Mem R) : Mem R :=
  forLoop nwb (fun k m => bwdSlotB nrows nwa nwb WA WB lrate i k m) m

/-- Body of the `i` loop of `word2vecBwd` (lines 188-213). -/
def bwdColumn (nrows nwa nwb : Nat) (WA WB : Nat → Nat) (lrate : R) (i : Nat)
    (m : Mem R) : Mem R :=
  bwdB nrows nwa nwb WA WB lrate i (bwdA nrows nwa nwb WA WB lrate i m)

/-- The kernel `Java_edu_berkeley_bid_CPUMACH_word2vecBwd`. -/
def word2vecBwd (nrows ncols nwa nwb : Nat) (WA WB : Nat → Nat) (lrate : R)
    (m : Mem R) : Mem R :=
  forLoop ncols (fun i m => bwdColumn nrows nwa nwb WA WB lrate i m) m

/-! ### `word2vecConv` (lines 6-67) -/

/-- The guard `j != 0 && i + j >= 0 && i + j < ncols` of lines 23 and 48. -/
def validOffset (ncols i : Nat) (j : Int) : Bool :=
  decide (j ≠ 0) && decide ((i : Int) + j ≥ 0) && decide ((i : Int) + j < (ncols : Int))

/-- Body of the first `j` loop of `word2vecConv` (lines 23-40); the loop
counter `t` is `j + skip`. -/
def convScore (ex : R → R) (nrows ncols skip : Nat) (W : Nat → Nat) (i t : Nat)
    (m : ConvMem R) : ConvMem R :=
  let j : Int := (t : Int) - (skip : Int)
  if validOffset ncols i j then
    let ia := W ((i : Int) + j).toNat
    let ib := W i
    let cv := clampedLogistic ex (dot nrows m.A m.B ia ib)
    { m with C := Function.update m.C (j + (skip : Int)).toNat (1 - cv) }
  else m

/-- Body of the `c` loop of lines 51-54. -/
def convAxpy (ia ib : Nat) (cv : R) (c : Nat) (m : ConvMem R) : ConvMem R :=
  let m1 : ConvMem R := { m with Btmp := Function.update m.Btmp c (m.Btmp c + cv * m.A (c + ia)) }
  { m1 with A := Function.update m1.A (c + ia) (m1.A (c + ia) + cv * m1.B (c + ib)) }

/-- Body of the second `j` loop of `word2vecConv` (lines 44-58); the loop
counter `t` is `j + skip`. -/
def convUpdate (nrows ncols skip : Nat) (W : Nat → Nat) (lrate : R) (i t : Nat)
    (m : ConvMem R) : ConvMem R :=
  let j : Int := (t : Int) - (skip : Int)
  let ib := W i
  let m0 := forLoop nrows (fun c m => { m with Btmp := Function.update m.Btmp c 0 }) m
  let m1 :=
    if validOffset ncols i j then
      let ia := W ((i : Int) + j).toNat
      let cv := lrate * m0.C (j + (skip : Int)).toNat
      forLoop nrows (fun c m => convAxpy ia ib cv c m) m0
    else m0
  forLoop nrows
    (fun c m => { m with B := Function.update m.B (c + ib) (m.B (c + ib) + m.Btmp c) }) m1

/-- Body of the `i` loop of `word2vecConv` (lines 21-59): the score pass over
`j = -skip .. skip`, then the update pass over the same offsets. -/
def convPosition (ex : R → R) (nrows ncols skip : Nat) (W : Nat → Nat) (lrate : R) (i : Nat)
    (m : ConvMem R) : ConvMem R :=
  forLoop (2 * skip + 1) (fun t m => convUpdate nrows ncols skip W lrate i t m)
    (forLoop (2 * skip + 1) (fun t m => convScore ex nrows ncols skip W i t m) m)

/-- The kernel `Java_edu_berkeley_bid_CPUMACH_word2vecConv`.  `m.C` and
`m.Btmp` are the contents of the freshly allocated scratch buffers. -/
def word2vecConv (ex : R → R) (nrows ncols skip : Nat) (W : Nat → Nat) (lrate : R)
    (m : ConvMem R) : ConvMem R :=
  forLoop ncols (fun i m => convPosition ex nrows ncols skip W lrate i m) m

end Kernels

/-! ## Loops and flat indices -/

section Loops

variable {σ : Type}

theorem forLoop_zero (body : Nat → σ → σ) (s : σ) : forLoop 0 body s = s := rfl

theorem forLoop_succ (n : Nat) (body : Nat → σ → σ) (s : σ) :
    forLoop (n + 1) body s = body n (forLoop n body s) := rfl

/-- A property kept by every iteration is kept by the loop. -/
theorem forLoop_inv (P : σ → Prop) (n : Nat) (body : Nat → σ → σ) (s : σ) (h0 : P s)
    (hstep : ∀ t s, t < n → P s → P (body t s)) : P (forLoop n body s) := by
  induction n with
  | zero => exact h0
  | succ n ih =>
    rw [forLoop_succ]
    exact hstep n _ (Nat.lt_succ_self n) (ih fun t s ht hs => hstep t s (Nat.lt_succ_of_lt ht) hs)

/-- An observation no iteration changes is not changed by the loop. -/
theorem forLoop_proj {α : Type} (f : σ → α) (n : Nat) (body : Nat → σ → σ) (s : σ)
    (h : ∀ t s, t < n → f (body t s) = f s) : f (forLoop n body s) = f s :=
  forLoop_inv (fun s1 => f s1 = f s) n body s rfl fun t s1 ht hs => (h t s1 ht).trans hs

/-- If iteration `t0` establishes `P` and every later iteration keeps it, the
loop establishes `P`; `I` is an invariant all iterations keep. -/
theorem forLoop_establish (I P : σ → Prop) (n t0 : Nat) (body : Nat → σ → σ) (s : σ)
    (ht0 : t0 < n) (hI0 : I s) (hI : ∀ t s, t < n → I s → I (body t s))
    (hset : ∀ s, I s → P (body t0 s))
    (hkeep : ∀ t s, t0 < t → t < n → I s → P s → P (body t s)) :
    P (forLoop n body s) := by
  induction n with
  | zero => exact absurd ht0 (Nat.not_lt_zero _)
  | succ n ih =>
    rw [forLoop_succ]
    have hIn : I (forLoop n body s) :=
      forLoop_inv I n body s hI0 fun t s ht hs => hI t s (Nat.lt_succ_of_lt ht) hs
    rcases Nat.lt_succ_iff_lt_or_eq.mp ht0 with hlt | heq
    · exact hkeep n _ hlt (Nat.lt_succ_self n) hIn
        (ih hlt (fun t s ht hs => hI t s (Nat.lt_succ_of_lt ht) hs)
          (fun t s h1 h2 => hkeep t s h1 (Nat.lt_succ_of_lt h2)))
    · subst heq
      exact hset _ hIn

end Loops

/-- Mixed-radix digits are unique: `a + n*q` with `a < n` determines `a` and `q`. -/
theorem digit_inj {n a b q r : Nat} (ha : a < n) (hb : b < n) (h : a + n * q = b + n * r) :
    a = b ∧ q = r := by
  have hn : 0 < n := Nat.lt_of_le_of_lt (Nat.zero_le a) ha
  have hab : a = b := by
    have h1 := congrArg (fun x => x % n) h
    simpa [Nat.add_mul_mod_self_left, Nat.mod_eq_of_lt ha, Nat.mod_eq_of_lt hb] using h1
  subst hab
  exact ⟨rfl, Nat.eq_of_mul_eq_mul_left hn (Nat.add_left_cancel h)⟩

/-- The score-buffer index `j + nwa*(k + nwb*i)` determines `(i, k, j)`. -/
theorem scoreIdx_inj {nwa nwb i j k i0 j0 k0 : Nat} (hj : j < nwa) (hj0 : j0 < nwa)
    (hk : k < nwb) (hk0 : k0 < nwb)
    (h : j + nwa * (k + nwb * i) = j0 + nwa * (k0 + nwb * i0)) :
    j = j0 ∧ k = k0 ∧ i = i0 := by
  obtain ⟨h1, h2⟩ := digit_inj hj hj0 h
  obtain ⟨h3, h4⟩ := digit_inj hk hk0 h2
  exact ⟨h1, h3, h4⟩

section Proofs

variable {R : Type} [LinearOrderedField R]

theorem dot_eq_sum (nrows : Nat) (A B : Nat → R) (ia ib : Nat) :
    dot nrows A B ia ib = ∑ c in Finset.range nrows, A (c + ia) * B (c + ib) := by
  unfold dot
  induction nrows with
  | zero => simp [forLoop_zero]
  | succ n ih => rw [forLoop_succ, ih, Finset.sum_range_succ]

/-! ## `word2vecFwd` -/

theorem fwdColumn_A (nrows nwa nwb : Nat) (WA WB : Nat → Nat) (i : Nat) (m : Mem R) :
    (fwdColumn nrows nwa nwb WA WB i m).A = m.A := by
  unfold fwdColumn
  refine forLoop_proj Mem.A _ _ _ fun j s _ => ?_
  exact forLoop_proj Mem.A _ _ _ fun _ _ _ => rfl

theorem fwdColumn_B (nrows nwa nwb : Nat) (WA WB : Nat → Nat) (i : Nat) (m : Mem R) :
    (fwdColumn nrows nwa nwb WA WB i m).B = m.B := by
  unfold fwdColumn
  refine forLoop_proj Mem.B _ _ _ fun j s _ => ?_
  exact forLoop_proj Mem.B _ _ _ fun _ _ _ => rfl

theorem word2vecFwd_A (nrows ncols nwa nwb : Nat) (WA WB : Nat → Nat) (m : Mem R) :
    (word2vecFwd nrows ncols nwa nwb WA WB m).A = m.A :=
  forLoop_proj Mem.A _ _ _ fun i s _ => fwdColumn_A nrows nwa nwb WA WB i s

theorem word2vecFwd_B (nrows ncols nwa nwb : Nat) (WA WB : Nat → Nat) (m : Mem R) :
    (word2vecFwd nrows ncols nwa nwb WA WB m).B = m.B :=
  forLoop_proj Mem.B _ _ _ fun i s _ => fwdColumn_B nrows nwa nwb WA WB i s

theorem fwdRow_A (nrows nwa nwb : Nat) (WA WB : Nat → Nat) (i j : Nat) (m : Mem R) :
    (forLoop nwb (fun k m => fwdCell nrows nwa nwb WA WB i j k m) m).A = m.A :=
  forLoop_proj Mem.A _ _ _ fun _ _ _ => rfl

theorem fwdRow_B (nrows nwa nwb : Nat) (WA WB : Nat → Nat) (i j : Nat) (m : Mem R) :
    (forLoop nwb (fun k m => fwdCell nrows nwa nwb WA WB i j k m) m).B = m.B :=
  forLoop_proj Mem.B _ _ _ fun _ _ _ => rfl

/-- The `k` loop of `word2vecFwd` leaves alone every cell it does not write. -/
theorem fwdRow_C_of_ne (nrows nwa nwb : Nat) (WA WB : Nat → Nat) (i j x : Nat) (m : Mem R)
    (hx : ∀ k, k < nwb → x ≠ j + nwa * (k + nwb * i)) :
    (forLoop nwb (fun k m => fwdCell nrows nwa nwb WA WB i j k m) m).C x = m.C x :=
  forLoop_proj (fun s : Mem R => s.C x) _ _ _ fun k _ hk =>
    Function.update_noteq (hx k hk) _ _

/-- One column of `word2vecFwd` leaves alone every cell it does not write. -/
theorem fwdColumn_C_of_ne (nrows nwa nwb : Nat) (WA WB : Nat → Nat) (i x : Nat) (m : Mem R)
    (hx : ∀ j k, j < nwa → k < nwb → x ≠ j + nwa * (k + nwb * i)) :
    (fwdColumn nrows nwa nwb WA WB i m).C x = m.C x :=
  forLoop_proj (fun s : Mem R => s.C x) _ _ _ fun j s hj =>
    fwdRow_C_of_ne nrows nwa nwb WA WB i j x s fun k hk => hx j k hj hk

/-- Closed form of one cell after the whole kernel, as a `dot`. -/
theorem word2vecFwd_cell (nrows ncols nwa nwb : Nat) (WA WB : Nat → Nat) (m : Mem R)
    (i j k : Nat) (hi : i < ncols) (hj : j < nwa) (hk : k < nwb) :
    (word2vecFwd nrows ncols nwa nwb WA WB m).C (j + nwa * (k + nwb * i)) =
      dot nrows m.A m.B (nrows * WA (j + i * nwa)) (nrows * WB (k + i * nwb)) := by
  have key : ∀ (n t0 : Nat) (body : Nat → Mem R → Mem R) (s : Mem R), t0 < n →
      (s.A = m.A ∧ s.B = m.B) →
      (∀ t s, t < n → (s.A = m.A ∧ s.B = m.B) → ((body t s).A = m.A ∧ (body t s).B = m.B)) →
      (∀ s, (s.A = m.A ∧ s.B = m.B) → (body t0 s).C (j + nwa * (k + nwb * i)) =
        dot nrows m.A m.B (nrows * WA (j + i * nwa)) (nrows * WB (k + i * nwb))) →
      (∀ t s, t0 < t → t < n → (s.A = m.A ∧ s.B = m.B) →
        (body t s).C (j + nwa * (k + nwb * i)) = s.C (j + nwa * (k + nwb * i))) →
      (forLoop n body s).C (j + nwa * (k + nwb * i)) =
        dot nrows m.A m.B (nrows * WA (j + i * nwa)) (nrows * WB (k + i * nwb)) := by
    intro n t0 body s ht0 hs hI hset hkeep
    exact forLoop_establish (fun s : Mem R => s.A = m.A ∧ s.B = m.B)
      (fun s : Mem R => s.C (j + nwa * (k + nwb * i)) =
        dot nrows m.A m.B (nrows * WA (j + i * nwa)) (nrows * WB (k + i * nwb)))
      n t0 body s ht0 hs hI hset fun t s h1 h2 h3 h4 => (hkeep t s h1 h2 h3).trans h4
  unfold word2vecFwd
  refine key ncols i _ m hi ⟨rfl, rfl⟩ ?_ ?_ ?_
  · intro t s _ hs
    exact ⟨(fwdColumn_A nrows nwa nwb WA WB t s).trans hs.1,
      (fwdColumn_B nrows nwa nwb WA WB t s).trans hs.2⟩
  · intro s hs
    unfold fwdColumn
    refine key nwa j _ s hj hs ?_ ?_ ?_
    · intro t s _ hs
      exact ⟨(fwdRow_A nrows nwa nwb WA WB i t s).trans hs.1,
        (fwdRow_B nrows nwa nwb WA WB i t s).trans hs.2⟩
    · intro s hs
      refine key nwb k _ s hk hs ?_ ?_ ?_
      · intro t s _ hs
        exact hs
      · intro s hs
        simp [fwdCell, hs.1, hs.2]
      · intro t s hkt ht _
        have hne : j + nwa * (k + nwb * i) ≠ j + nwa * (t + nwb * i) := fun h =>
          absurd (scoreIdx_inj hj hj hk ht h).2.1 (Nat.ne_of_lt hkt)
        exact Function.update_noteq hne _ _
    · intro t s hjt ht _
      refine fwdRow_C_of_ne nrows nwa nwb WA WB i t _ s fun k1 hk1 h => ?_
      exact absurd (scoreIdx_inj hj ht hk hk1 h).1 (Nat.ne_of_lt hjt)
  · intro t s hit _ _
    refine fwdColumn_C_of_ne nrows nwa nwb WA WB t _ s fun j1 k1 hj1 hk1 h => ?_
    exact absurd (scoreIdx_inj hj hj1 hk hk1 h).2.2 (Nat.ne_of_lt hit)

/-- Every offset below `nwa*nwb*ncols` is the index of one triple `(i, k, j)`. -/
theorem scoreIdx_decode (nwa nwb ncols x : Nat) (hx : x < nwa * nwb * ncols) :
    x / (nwa * nwb) < ncols ∧ x % nwa < nwa ∧ x / nwa % nwb < nwb ∧
      x = x % nwa + nwa * (x / nwa % nwb + nwb * (x / (nwa * nwb))) := by
  have ha : 0 < nwa := by
    rcases Nat.eq_zero_or_pos nwa with h | h
    · simp [h] at hx
    · exact h
  have hb : 0 < nwb := by
    rcases Nat.eq_zero_or_pos nwb with h | h
    · simp [h] at hx
    · exact h
  refine ⟨Nat.div_lt_of_lt_mul hx, Nat.mod_lt _ ha, Nat.mod_lt _ hb, ?_⟩
  rw [← Nat.div_div_eq_div_mul, Nat.mod_add_div (x / nwa) nwb, Nat.mod_add_div x nwa]

/-! ## Column updates in closed form -/

/-- The loop `A[c + ia] += cv * B[c + ib]` adds to the `nrows` cells from `ia` on. -/
theorem axpyA_eq (nrows ia ib : Nat) (cv : R) (m : Mem R) :
    axpyA nrows ia ib cv m =
      { m with A := fun x =>
          if ia ≤ x ∧ x < ia + nrows then m.A x + cv * m.B (x - ia + ib) else m.A x } := by
  unfold axpyA
  induction nrows with
  | zero =>
    rw [forLoop_zero]
    have h0 : ∀ x, ¬ (ia ≤ x ∧ x < ia + 0) := fun x => by omega
    ext x <;> simp only [h0, if_false]
  | succ n ih =>
    rw [forLoop_succ, ih]
    ext x <;> simp only [Function.update_apply]
    by_cases hx : x = n + ia
    · subst hx
      have h1 : ¬ (ia ≤ n + ia ∧ n + ia < ia + n) := by omega
      have h2 : ia ≤ n + ia ∧ n + ia < ia + (n + 1) := by omega
      have h3 : n + ia - ia + ib = n + ib := by omega
      rw [if_pos rfl, if_neg h1, if_pos h2, h3]
    · have h1 : (ia ≤ x ∧ x < ia + (n + 1)) ↔ (ia ≤ x ∧ x < ia + n) := by omega
      simp [hx, h1]

/-- The loop `B[c + ib] += cv * A[c + ia]` adds to the `nrows` cells from `ib` on. -/
theorem axpyB_eq (nrows ia ib : Nat) (cv : R) (m : Mem R) :
    axpyB nrows ia ib cv m =
      { m with B := fun x =>
          if ib ≤ x ∧ x < ib + nrows then m.B x + cv * m.A (x - ib + ia) else m.B x } := by
  unfold axpyB
  induction nrows with
  | zero =>
    rw [forLoop_zero]
    have h0 : ∀ x, ¬ (ib ≤ x ∧ x < ib + 0) := fun x => by omega
    ext x <;> simp only [h0, if_false]
  | succ n ih =>
    rw [forLoop_succ, ih]
    ext x <;> simp only [Function.update_apply]
    by_cases hx : x = n + ib
    · subst hx
      have h1 : ¬ (ib ≤ n + ib ∧ n + ib < ib + n) := by omega
      have h2 : ib ≤ n + ib ∧ n + ib < ib + (n + 1) := by omega
      have h3 : n + ib - ib + ia = n + ia := by omega
      rw [if_pos rfl, if_neg h1, if_pos h2, h3]
    · have h1 : (ib ≤ x ∧ x < ib + (n + 1)) ↔ (ib ≤ x ∧ x < ib + n) := by omega
      simp [hx, h1]

/-- A loop of `A[:, ia] += (lrate * C[cf k]) * B[:, ib k]` over `k`. -/
theorem rowA_eq (nrows n ia : Nat) (ib cf : Nat → Nat) (lrate : R) (m : Mem R) :
    forLoop n (fun k m => axpyA nrows ia (ib k) (lrate * m.C (cf k)) m) m =
      { m with A := fun x =>
          if ia ≤ x ∧ x < ia + nrows then
            m.A x + ∑ k in Finset.range n, lrate * m.C (cf k) * m.B (x - ia + ib k)
          else m.A x } := by
  induction n with
  | zero =>
    rw [forLoop_zero]
    ext x <;> simp
  | succ n ih =>
    rw [forLoop_succ, ih, axpyA_eq]
    ext x <;> simp only []
    by_cases hx : ia ≤ x ∧ x < ia + nrows
    · simp only [hx, and_self, if_true, Finset.sum_range_succ]
      ring
    · simp only [hx, if_false]

/-- A loop of `B[:, ib] += (lrate * C[cf j]) * A[:, ia j]` over `j`. -/
theorem rowB_eq (nrows n ib : Nat) (ia cf : Nat → Nat) (lrate : R) (m : Mem R) :
    forLoop n (fun j m => axpyB nrows (ia j) ib (lrate * m.C (cf j)) m) m =
      { m with B := fun x =>
          if ib ≤ x ∧ x < ib + nrows then
            m.B x + ∑ j in Finset.range n, lrate * m.C (cf j) * m.A (x - ib + ia j)
          else m.B x } := by
  induction n with
  | zero =>
    rw [forLoop_zero]
    ext x <;> simp
  | succ n ih =>
    rw [forLoop_succ, ih, axpyB_eq]
    ext x <;> simp only []
    by_cases hx : ib ≤ x ∧ x < ib + nrows
    · simp only [hx, and_self, if_true, Finset.sum_range_succ]
      ring
    · simp only [hx, if_false]

/-- A flat offset `c + nrows*v` with `c < nrows` lies in the column that starts
at `nrows*u` exactly when `u = v`. -/
theorem col_mem_iff {nrows c u v : Nat} (hc : c < nrows) :
    (nrows * u ≤ c + nrows * v ∧ c + nrows * v < nrows * u + nrows) ↔ u = v := by
  constructor
  · rintro ⟨h1, h2⟩
    rcases Nat.lt_trichotomy u v with h | h | h
    · have h3 : nrows * (u + 1) ≤ nrows * v := Nat.mul_le_mul_left nrows h
      rw [Nat.mul_add, Nat.mul_one] at h3
      omega
    · exact h
    · have h3 : nrows * (v + 1) ≤ nrows * u := Nat.mul_le_mul_left nrows h
      rw [Nat.mul_add, Nat.mul_one] at h3
      omega
  · rintro rfl
    omega

omit [LinearOrderedField R] in
/-- Cell `x` of `C` after a loop in which iteration `t0` writes `v` there and
no later iteration writes it; `A` and `B` stay as in `m`. -/
theorem forLoop_cell (m : Mem R) (x : Nat) (v : R) (n t0 : Nat) (body : Nat → Mem R → Mem R)
    (s : Mem R) (ht0 : t0 < n) (hs : s.A = m.A ∧ s.B = m.B)
    (hI : ∀ t s, t < n → (s.A = m.A ∧ s.B = m.B) → ((body t s).A = m.A ∧ (body t s).B = m.B))
    (hset : ∀ s, (s.A = m.A ∧ s.B = m.B) → (body t0 s).C x = v)
    (hkeep : ∀ t s, t0 < t → t < n → (s.A = m.A ∧ s.B = m.B) → (body t s).C x = s.C x) :
    (forLoop n body s).C x = v :=
  forLoop_establish (fun s : Mem R => s.A = m.A ∧ s.B = m.B) (fun s : Mem R => s.C x = v)
    n t0 body s ht0 hs hI hset fun t s h1 h2 h3 h4 => (hkeep t s h1 h2 h3).trans h4

/-! ## `word2vec` -/

theorem pairRow_A (ex : R → R) (nrows nwa nwb : Nat) (WA WB : Nat → Nat) (i j : Nat)
    (m : Mem R) :
    (forLoop nwb (fun k m => pairScore ex nrows nwa nwb WA WB i j k m) m).A = m.A :=
  forLoop_proj Mem.A _ _ _ fun _ _ _ => rfl

theorem pairRow_B (ex : R → R) (nrows nwa nwb : Nat) (WA WB : Nat → Nat) (i j : Nat)
    (m : Mem R) :
    (forLoop nwb (fun k m => pairScore ex nrows nwa nwb WA WB i j k m) m).B = m.B :=
  forLoop_proj Mem.B _ _ _ fun _ _ _ => rfl

theorem pairScores_A (ex : R → R) (nrows nwa nwb : Nat) (WA WB : Nat → Nat) (i : Nat)
    (m : Mem R) : (pairScores ex nrows nwa nwb WA WB i m).A = m.A :=
  forLoop_proj Mem.A _ _ _ fun j s _ => pairRow_A ex nrows nwa nwb WA WB i j s

theorem pairScores_B (ex : R → R) (nrows nwa nwb : Nat) (WA WB : Nat → Nat) (i : Nat)
    (m : Mem R) : (pairScores ex nrows nwa nwb WA WB i m).B = m.B :=
  forLoop_proj Mem.B _ _ _ fun j s _ => pairRow_B ex nrows nwa nwb WA WB i j s

/-- After the score pass of column `i`, the scratch cell `j + nwa*k` holds the
negated transform of the score of slots `j` and `k`. -/
theorem pairScores_C (ex : R → R) (nrows nwa nwb : Nat) (WA WB : Nat → Nat) (i : Nat)
    (m : Mem R) (j k : Nat) (hj : j < nwa) (hk : k < nwb) :
    (pairScores ex nrows nwa nwb WA WB i m).C (j + nwa * k) =
      -clampedLogistic ex
        (dot nrows m.A m.B (nrows * WA (j + i * nwa)) (nrows * WB (k + i * nwb))) := by
  unfold pairScores
  refine forLoop_cell m _ _ nwa j _ m hj ⟨rfl, rfl⟩ ?_ ?_ ?_
  · intro t s _ hs
    exact ⟨(pairRow_A ex nrows nwa nwb WA WB i t s).trans hs.1,
      (pairRow_B ex nrows nwa nwb WA WB i t s).trans hs.2⟩
  · intro s hs
    refine forLoop_cell m _ _ nwb k _ s hk hs ?_ ?_ ?_
    · intro t s _ hs
      exact hs
    · intro s hs
      simp [pairScore, hs.1, hs.2, Nat.mul_comm k nwa]
    · intro t s hkt _ _
      have hne : j + nwa * k ≠ j + t * nwa := fun h => by
        rw [Nat.mul_comm t nwa] at h
        exact absurd (digit_inj hj hj h).2 (Nat.ne_of_lt hkt)
      exact Function.update_noteq hne _ _
  · intro t s hjt ht _
    refine forLoop_proj (fun s : Mem R => s.C (j + nwa * k)) _ _ s fun k1 _ _ => ?_
    have hne : j + nwa * k ≠ t + k1 * nwa := fun h => by
      rw [Nat.mul_comm k1 nwa] at h
      exact absurd (digit_inj hj ht h).1 (Nat.ne_of_lt hjt)
    exact Function.update_noteq hne _ _

/-- Update pass 1 of `word2vec` in closed form: only `A` changes, by sums over
the pre-pass `B` and `C`. -/
theorem pairUpdateA_eq (nrows nwa nwb : Nat) (WA WB : Nat → Nat) (lrate : R) (i : Nat)
    (m : Mem R) :
    pairUpdateA nrows nwa nwb WA WB lrate i m =
      { m with A := fun x => m.A x + ∑ j in Finset.range nwa,
          if nrows * WA (j + i * nwa) ≤ x ∧ x < nrows * WA (j + i * nwa) + nrows then
            ∑ k in Finset.range nwb, lrate * m.C (j + nwa * k) *
              m.B (x - nrows * WA (j + i * nwa) + nrows * WB (k + i * nwb))
          else 0 } := by
  unfold pairUpdateA
  suffices gen : ∀ n : Nat,
      forLoop n (fun j m =>
        forLoop nwb (fun k m =>
          axpyA nrows (nrows * WA (j + i * nwa)) (nrows * WB (k + i * nwb))
            (lrate * m.C (j + nwa * k)) m) m) m =
      { m with A := fun x => m.A x + ∑ j in Finset.range n,
          if nrows * WA (j + i * nwa) ≤ x ∧ x < nrows * WA (j + i * nwa) + nrows then
            ∑ k in Finset.range nwb, lrate * m.C (j + nwa * k) *
              m.B (x - nrows * WA (j + i * nwa) + nrows * WB (k + i * nwb))
          else 0 } from gen nwa
  intro n
  induction n with
  | zero =>
    rw [forLoop_zero]
    ext x <;> simp
  | succ n ih =>
    rw [forLoop_succ, ih]
    rw [rowA_eq nrows nwb (nrows * WA (n + i * nwa)) (fun k => nrows * WB (k + i * nwb))
      (fun k => n + nwa * k) lrate]
    ext x <;> simp only []
    rw [Finset.sum_range_succ]
    by_cases hx : nrows * WA (n + i * nwa) ≤ x ∧ x < nrows * WA (n + i * nwa) + nrows
    · simp only [hx, and_self, if_true]
      ring
    · simp only [hx, if_false, add_zero]

/-- Update pass 2 of `word2vec` in closed form: only `B` changes, by sums over
the `A` and `C` it is entered with. -/
theorem pairUpdateB_eq (nrows nwa nwb : Nat) (WA WB : Nat → Nat) (lrate : R) (i : Nat)
    (m : Mem R) :
    pairUpdateB nrows nwa nwb WA WB lrate i m =
      { m with B := fun x => m.B x + ∑ k in Finset.range nwb,
          if nrows * WB (k + i * nwb) ≤ x ∧ x < nrows * WB (k + i * nwb) + nrows then
            ∑ j in Finset.range nwa, lrate * m.C (j + nwa * k) *
              m.A (x - nrows * WB (k + i * nwb) + nrows * WA (j + i * nwa))
          else 0 } := by
  unfold pairUpdateB
  suffices gen : ∀ n : Nat,
      forLoop n (fun k m =>
        forLoop nwa (fun j m =>
          axpyB nrows (nrows * WA (j + i * nwa)) (nrows * WB (k + i * nwb))
            (lrate * m.C (j + nwa * k)) m) m) m =
      { m with B := fun x => m.B x + ∑ k in Finset.range n,
          if nrows * WB (k + i * nwb) ≤ x ∧ x < nrows * WB (k + i * nwb) + nrows then
            ∑ j in Finset.range nwa, lrate * m.C (j + nwa * k) *
              m.A (x - nrows * WB (k + i * nwb) + nrows * WA (j + i * nwa))
          else 0 } from gen nwb
  intro n
  induction n with
  | zero =>
    rw [forLoop_zero]
    ext x <;> simp
  | succ n ih =>
    rw [forLoop_succ, ih]
    rw [rowB_eq nrows nwa (nrows * WB (n + i * nwb)) (fun j => nrows * WA (j + i * nwa))
      (fun j => j + nwa * n) lrate]
    ext x <;> simp only []
    rw [Finset.sum_range_succ]
    by_cases hx : nrows * WB (n + i * nwb) ≤ x ∧ x < nrows * WB (n + i * nwb) + nrows
    · simp only [hx, and_self, if_true]
      ring
    · simp only [hx, if_false, add_zero]

/-- A one-column call of `word2vec` is the column body at `i = 0`. -/
theorem word2vec_one (ex : R → R) (nrows nwa nwb : Nat) (WA WB : Nat → Nat) (lrate : R)
    (m : Mem R) :
    word2vec ex nrows 1 nwa nwb WA WB lrate m =
      pairUpdateB nrows nwa nwb WA WB lrate 0
        (pairUpdateA nrows nwa nwb WA WB lrate 0 (pairScores ex nrows nwa nwb WA WB 0 m)) := rfl

/-- Column `v` of `A` after pass 1 of column `i`, from the state the pass is
entered with. -/
theorem pairUpdateA_col (nrows nwa nwb : Nat) (WA WB : Nat → Nat) (lrate : R) (i : Nat)
    (m : Mem R) (v c : Nat) (hc : c < nrows) :
    (pairUpdateA nrows nwa nwb WA WB lrate i m).A (c + nrows * v) =
      m.A (c + nrows * v) + lrate * ∑ j in Finset.range nwa,
        if WA (j + i * nwa) = v then
          ∑ k in Finset.range nwb, m.C (j + nwa * k) * m.B (c + nrows * WB (k + i * nwb))
        else 0 := by
  rw [pairUpdateA_eq]
  simp only [col_mem_iff hc]
  rw [Finset.mul_sum]
  congr 1
  refine Finset.sum_congr rfl fun j _ => ?_
  by_cases h : WA (j + i * nwa) = v
  · simp only [h, if_true, Finset.mul_sum]
    refine Finset.sum_congr rfl fun k _ => ?_
    rw [Nat.add_sub_cancel, mul_assoc]
  · simp only [h, if_false, mul_zero]

/-- Column `w` of `B` after pass 2 of column `i`, from the state the pass is
entered with. -/
theorem pairUpdateB_col (nrows nwa nwb : Nat) (WA WB : Nat → Nat) (lrate : R) (i : Nat)
    (m : Mem R) (w c : Nat) (hc : c < nrows) :
    (pairUpdateB nrows nwa nwb WA WB lrate i m).B (c + nrows * w) =
      m.B (c + nrows * w) + lrate * ∑ k in Finset.range nwb,
        if WB (k + i * nwb) = w then
          ∑ j in Finset.range nwa, m.C (j + nwa * k) * m.A (c + nrows * WA (j + i * nwa))
        else 0 := by
  rw [pairUpdateB_eq]
  simp only [col_mem_iff hc]
  rw [Finset.mul_sum]
  congr 1
  refine Finset.sum_congr rfl fun k _ => ?_
  by_cases h : WB (k + i * nwb) = w
  · simp only [h, if_true, Finset.mul_sum]
    refine Finset.sum_congr rfl fun j _ => ?_
    rw [Nat.add_sub_cancel, mul_assoc]
  · simp only [h, if_false, mul_zero]

theorem pairUpdateA_B (nrows nwa nwb : Nat) (WA WB : Nat → Nat) (lrate : R) (i : Nat)
    (m : Mem R) : (pairUpdateA nrows nwa nwb WA WB lrate i m).B = m.B := by
  rw [pairUpdateA_eq]

theorem pairUpdateA_C (nrows nwa nwb : Nat) (WA WB : Nat → Nat) (lrate : R) (i : Nat)
    (m : Mem R) : (pairUpdateA nrows nwa nwb WA WB lrate i m).C = m.C := by
  rw [pairUpdateA_eq]

theorem pairUpdateB_A (nrows nwa nwb : Nat) (WA WB : Nat → Nat) (lrate : R) (i : Nat)
    (m : Mem R) : (pairUpdateB nrows nwa nwb WA WB lrate i m).A = m.A := by
  rw [pairUpdateB_eq]

theorem pairUpdateB_C (nrows nwa nwb : Nat) (WA WB : Nat → Nat) (lrate : R) (i : Nat)
    (m : Mem R) : (pairUpdateB nrows nwa nwb WA WB lrate i m).C = m.C := by
  rw [pairUpdateB_eq]

/-! ## `word2vecBwd` -/

omit [LinearOrderedField R] in
/-- An observation that no iteration from `t0` on changes has, after the loop,
the value it had after the first `t0` iterations. -/
theorem forLoop_tail_proj {α : Type} (f : Mem R → α) (n t0 : Nat)
    (body : Nat → Mem R → Mem R) (s : Mem R) (h : t0 ≤ n)
    (hkeep : ∀ t s, t0 ≤ t → t < n → f (body t s) = f s) :
    f (forLoop n body s) = f (forLoop t0 body s) := by
  induction n with
  | zero =>
    rw [Nat.le_zero.mp h]
  | succ n ih =>
    rcases Nat.lt_or_ge t0 (n + 1) with hlt | hge
    · rw [forLoop_succ, hkeep n _ (Nat.lt_succ_iff.mp hlt) (Nat.lt_succ_self n)]
      exact ih (Nat.lt_succ_iff.mp hlt) fun t s h1 h2 => hkeep t s h1 (Nat.lt_succ_of_lt h2)
    · rw [Nat.le_antisymm h hge]

/-- The loop `A[c + ia] = 0` clears the `nrows` cells from `ia` on. -/
theorem zeroA_eq (nrows ia : Nat) (m : Mem R) :
    zeroA nrows ia m =
      { m with A := fun x => if ia ≤ x ∧ x < ia + nrows then 0 else m.A x } := by
  unfold zeroA
  induction nrows with
  | zero =>
    rw [forLoop_zero]
    have h0 : ∀ x, ¬ (ia ≤ x ∧ x < ia + 0) := fun x => by omega
    ext x <;> simp only [h0, if_false]
  | succ n ih =>
    rw [forLoop_succ, ih]
    ext x <;> simp only [Function.update_apply]
    by_cases hx : x = n + ia
    · subst hx
      have h2 : ia ≤ n + ia ∧ n + ia < ia + (n + 1) := by omega
      rw [if_pos rfl, if_pos h2]
    · have h1 : (ia ≤ x ∧ x < ia + (n + 1)) ↔ (ia ≤ x ∧ x < ia + n) := by omega
      simp [hx, h1]

/-- The loop `B[c + ib] = 0` clears the `nrows` cells from `ib` on. -/
theorem zeroB_eq (nrows ib : Nat) (m : Mem R) :
    zeroB nrows ib m =
      { m with B := fun x => if ib ≤ x ∧ x < ib + nrows then 0 else m.B x } := by
  unfold zeroB
  induction nrows with
  | zero =>
    rw [forLoop_zero]
    have h0 : ∀ x, ¬ (ib ≤ x ∧ x < ib + 0) := fun x => by omega
    ext x <;> simp only [h0, if_false]
  | succ n ih =>
    rw [forLoop_succ, ih]
    ext x <;> simp only [Function.update_apply]
    by_cases hx : x = n + ib
    · subst hx
      have h2 : ib ≤ n + ib ∧ n + ib < ib + (n + 1) := by omega
      rw [if_pos rfl, if_pos h2]
    · have h1 : (ib ≤ x ∧ x < ib + (n + 1)) ↔ (ib ≤ x ∧ x < ib + n) := by omega
      simp [hx, h1]

/-- Slot `j` of the first half of a column of `word2vecBwd` (lines 189-199):
the column of `A` it names is replaced by a weighted sum of columns of `B`. -/
theorem bwdSlotA_eq (nrows nwa nwb : Nat) (WA WB : Nat → Nat) (lrate : R) (i j : Nat)
    (m : Mem R) :
    bwdSlotA nrows nwa nwb WA WB lrate i j m =
      { m with A := fun x =>
          if nrows * WA (j + i * nwa) ≤ x ∧ x < nrows * WA (j + i * nwa) + nrows then
            ∑ k in Finset.range nwb, lrate * m.C (j + nwa * (k + nwb * i)) *
              m.B (x - nrows * WA (j + i * nwa) + nrows * WB (k + i * nwb))
          else m.A x } := by
  unfold bwdSlotA
  rw [rowA_eq nrows nwb (nrows * WA (j + i * nwa)) (fun k => nrows * WB (k + i * nwb))
    (fun k => j + nwa * (k + nwb * i)) lrate, zeroA_eq]
  ext x <;> simp only []
  by_cases hx : nrows * WA (j + i * nwa) ≤ x ∧ x < nrows * WA (j + i * nwa) + nrows
  · simp only [hx, and_self, if_true, zero_add]
  · simp only [hx, if_false]

/-- Slot `k` of the second half of a column of `word2vecBwd` (lines 202-212):
the column of `B` it names is replaced by a weighted sum of columns of `A`. -/
theorem bwdSlotB_eq (nrows nwa nwb : Nat) (WA WB : Nat → Nat) (lrate : R) (i k : Nat)
    (m : Mem R) :
    bwdSlotB nrows nwa nwb WA WB lrate i k m =
      { m with B := fun x =>
          if nrows * WB (k + i * nwb) ≤ x ∧ x < nrows * WB (k + i * nwb) + nrows then
            ∑ j in Finset.range nwa, lrate * m.C (j + nwa * (k + nwb * i)) *
              m.A (x - nrows * WB (k + i * nwb) + nrows * WA (j + i * nwa))
          else m.B x } := by
  unfold bwdSlotB
  rw [rowB_eq nrows nwa (nrows * WB (k + i * nwb)) (fun j => nrows * WA (j + i * nwa))
    (fun j => j + nwa * (k + nwb * i)) lrate, zeroB_eq]
  ext x <;> simp only []
  by_cases hx : nrows * WB (k + i * nwb) ≤ x ∧ x < nrows * WB (k + i * nwb) + nrows
  · simp only [hx, and_self, if_true, zero_add]
  · simp only [hx, if_false]

theorem bwdSlotA_B (nrows nwa nwb : Nat) (WA WB : Nat → Nat) (lrate : R) (i j : Nat)
    (m : Mem R) : (bwdSlotA nrows nwa nwb WA WB lrate i j m).B = m.B := by
  rw [bwdSlotA_eq]

theorem bwdSlotA_C (nrows nwa nwb : Nat) (WA WB : Nat → Nat) (lrate : R) (i j : Nat)
    (m : Mem R) : (bwdSlotA nrows nwa nwb WA WB lrate i j m).C = m.C := by
  rw [bwdSlotA_eq]

theorem bwdSlotB_A (nrows nwa nwb : Nat) (WA WB : Nat → Nat) (lrate : R) (i k : Nat)
    (m : Mem R) : (bwdSlotB nrows nwa nwb WA WB lrate i k m).A = m.A := by
  rw [bwdSlotB_eq]

theorem bwdSlotB_C (nrows nwa nwb : Nat) (WA WB : Nat → Nat) (lrate : R) (i k : Nat)
    (m : Mem R) : (bwdSlotB nrows nwa nwb WA WB lrate i k m).C = m.C := by
  rw [bwdSlotB_eq]

theorem bwdA_B (nrows nwa nwb : Nat) (WA WB : Nat → Nat) (lrate : R) (i : Nat) (m : Mem R) :
    (bwdA nrows nwa nwb WA WB lrate i m).B = m.B :=
  forLoop_proj Mem.B _ _ _ fun j s _ => bwdSlotA_B nrows nwa nwb WA WB lrate i j s

theorem bwdA_C (nrows nwa nwb : Nat) (WA WB : Nat → Nat) (lrate : R) (i : Nat) (m : Mem R) :
    (bwdA nrows nwa nwb WA WB lrate i m).C = m.C :=
  forLoop_proj Mem.C _ _ _ fun j s _ => bwdSlotA_C nrows nwa nwb WA WB lrate i j s

theorem bwdB_A (nrows nwa nwb : Nat) (WA WB : Nat → Nat) (lrate : R) (i : Nat) (m : Mem R) :
    (bwdB nrows nwa nwb WA WB lrate i m).A = m.A :=
  forLoop_proj Mem.A _ _ _ fun k s _ => bwdSlotB_A nrows nwa nwb WA WB lrate i k s

theorem bwdB_C (nrows nwa nwb : Nat) (WA WB : Nat → Nat) (lrate : R) (i : Nat) (m : Mem R) :
    (bwdB nrows nwa nwb WA WB lrate i m).C = m.C :=
  forLoop_proj Mem.C _ _ _ fun k s _ => bwdSlotB_C nrows nwa nwb WA WB lrate i k s

theorem bwdColumn_C (nrows nwa nwb : Nat) (WA WB : Nat → Nat) (lrate : R) (i : Nat)
    (m : Mem R) : (bwdColumn nrows nwa nwb WA WB lrate i m).C = m.C := by
  unfold bwdColumn
  rw [bwdB_C, bwdA_C]

theorem word2vecBwd_C (nrows ncols nwa nwb : Nat) (WA WB : Nat → Nat) (lrate : R)
    (m : Mem R) : (word2vecBwd nrows ncols nwa nwb WA WB lrate m).C = m.C :=
  forLoop_proj Mem.C _ _ _ fun i s _ => bwdColumn_C nrows nwa nwb WA WB lrate i s

/-- The first half of a column leaves alone every column of `A` that no
context slot of the column names. -/
theorem bwdA_A_untouched (nrows nwa nwb : Nat) (WA WB : Nat → Nat) (lrate : R) (i : Nat)
    (m : Mem R) (v c : Nat) (hc : c < nrows) (h : ∀ j, j < nwa → WA (j + i * nwa) ≠ v) :
    (bwdA nrows nwa nwb WA WB lrate i m).A (c + nrows * v) = m.A (c + nrows * v) := by
  unfold bwdA
  refine forLoop_proj (fun s : Mem R => s.A (c + nrows * v)) _ _ _ fun j s hj => ?_
  simp only []
  rw [bwdSlotA_eq]
  simp only [col_mem_iff hc, h j hj, if_false]

/-- After the first half of column `i`, the column of `A` named by slot `j0`,
when no later slot of the column names the same id, is the weighted sum of
slot `j0` over the `B` the column is entered with. -/
theorem bwdA_A_last (nrows nwa nwb : Nat) (WA WB : Nat → Nat) (lrate : R) (i : Nat)
    (m : Mem R) (j0 c : Nat) (hj0 : j0 < nwa) (hc : c < nrows)
    (hlast : ∀ j, j0 < j → j < nwa → WA (j + i * nwa) ≠ WA (j0 + i * nwa)) :
    (bwdA nrows nwa nwb WA WB lrate i m).A (c + nrows * WA (j0 + i * nwa)) =
      ∑ k in Finset.range nwb, lrate * m.C (j0 + nwa * (k + nwb * i)) *
        m.B (c + nrows * WB (k + i * nwb)) := by
  unfold bwdA
  rw [forLoop_tail_proj (fun s : Mem R => s.A (c + nrows * WA (j0 + i * nwa))) nwa (j0 + 1) _ m
    hj0 (fun t s h1 h2 => by
      simp only []
      rw [bwdSlotA_eq]
      simp only [col_mem_iff hc, hlast t h1 h2, if_false])]
  rw [forLoop_succ, bwdSlotA_eq]
  simp only [col_mem_iff hc, if_true, Nat.add_sub_cancel]
  refine Finset.sum_congr rfl fun k _ => ?_
  have hB := forLoop_proj Mem.B j0 (fun j m => bwdSlotA nrows nwa nwb WA WB lrate i j m) m
    (fun j s _ => bwdSlotA_B nrows nwa nwb WA WB lrate i j s)
  have hC := forLoop_proj Mem.C j0 (fun j m => bwdSlotA nrows nwa nwb WA WB lrate i j m) m
    (fun j s _ => bwdSlotA_C nrows nwa nwb WA WB lrate i j s)
  rw [hB, hC]

/-- After the second half of column `i`, the column of `B` named by slot `k0`,
when no later slot of the column names the same id, is the weighted sum of
slot `k0` over the `A` the second half is entered with. -/
theorem bwdB_B_last (nrows nwa nwb : Nat) (WA WB : Nat → Nat) (lrate : R) (i : Nat)
    (m : Mem R) (k0 c : Nat) (hk0 : k0 < nwb) (hc : c < nrows)
    (hlast : ∀ k, k0 < k → k < nwb → WB (k + i * nwb) ≠ WB (k0 + i * nwb)) :
    (bwdB nrows nwa nwb WA WB lrate i m).B (c + nrows * WB (k0 + i * nwb)) =
      ∑ j in Finset.range nwa, lrate * m.C (j + nwa * (k0 + nwb * i)) *
        m.A (c + nrows * WA (j + i * nwa)) := by
  unfold bwdB
  rw [forLoop_tail_proj (fun s : Mem R => s.B (c + nrows * WB (k0 + i * nwb))) nwb (k0 + 1) _ m
    hk0 (fun t s h1 h2 => by
      simp only []
      rw [bwdSlotB_eq]
      simp only [col_mem_iff hc, hlast t h1 h2, if_false])]
  rw [forLoop_succ, bwdSlotB_eq]
  simp only [col_mem_iff hc, if_true, Nat.add_sub_cancel]
  refine Finset.sum_congr rfl fun j _ => ?_
  have hA := forLoop_proj Mem.A k0 (fun k m => bwdSlotB nrows nwa nwb WA WB lrate i k m) m
    (fun k s _ => bwdSlotB_A nrows nwa nwb WA WB lrate i k s)
  have hC := forLoop_proj Mem.C k0 (fun k m => bwdSlotB nrows nwa nwb WA WB lrate i k m) m
    (fun k s _ => bwdSlotB_C nrows nwa nwb WA WB lrate i k s)
  rw [hA, hC]

theorem bwdColumn_A (nrows nwa nwb : Nat) (WA WB : Nat → Nat) (lrate : R) (i : Nat)
    (m : Mem R) :
    (bwdColumn nrows nwa nwb WA WB lrate i m).A = (bwdA nrows nwa nwb WA WB lrate i m).A := by
  unfold bwdColumn
  rw [bwdB_A]

/-- A column of `word2vecBwd` leaves alone every column of `A` that no context
slot of the column names. -/
theorem bwdColumn_A_untouched (nrows nwa nwb : Nat) (WA WB : Nat → Nat) (lrate : R) (i : Nat)
    (m : Mem R) (v c : Nat) (hc : c < nrows) (h : ∀ j, j < nwa → WA (j + i * nwa) ≠ v) :
    (bwdColumn nrows nwa nwb WA WB lrate i m).A (c + nrows * v) = m.A (c + nrows * v) := by
  rw [bwdColumn_A, bwdA_A_untouched nrows nwa nwb WA WB lrate i m v c hc h]

/-- Two runs of the first half of a column from states with equal `B` and `C`
agree on each cell of `A` on which they agreed before, and on each cell of a
column of `A` that a context slot of the column names. -/
theorem bwdA_A_congr (nrows nwa nwb : Nat) (WA WB : Nat → Nat) (lrate : R) (i : Nat)
    (s1 s2 : Mem R) (hB : s1.B = s2.B) (hC : s1.C = s2.C) (x : Nat)
    (hx : s1.A x = s2.A x ∨ ∃ j, j < nwa ∧
      (nrows * WA (j + i * nwa) ≤ x ∧ x < nrows * WA (j + i * nwa) + nrows)) :
    (bwdA nrows nwa nwb WA WB lrate i s1).A x = (bwdA nrows nwa nwb WA WB lrate i s2).A x := by
  unfold bwdA
  suffices gen : ∀ n : Nat,
      (s1.A x = s2.A x ∨ ∃ j, j < n ∧
        (nrows * WA (j + i * nwa) ≤ x ∧ x < nrows * WA (j + i * nwa) + nrows)) →
      (forLoop n (fun j m => bwdSlotA nrows nwa nwb WA WB lrate i j m) s1).A x =
        (forLoop n (fun j m => bwdSlotA nrows nwa nwb WA WB lrate i j m) s2).A x from gen nwa hx
  intro n
  induction n with
  | zero =>
    rintro (h | ⟨j, hj, _⟩)
    · exact h
    · exact absurd hj (Nat.not_lt_zero j)
  | succ n ih =>
    intro h
    have hB1 := forLoop_proj Mem.B n (fun j m => bwdSlotA nrows nwa nwb WA WB lrate i j m) s1
      (fun j s _ => bwdSlotA_B nrows nwa nwb WA WB lrate i j s)
    have hB2 := forLoop_proj Mem.B n (fun j m => bwdSlotA nrows nwa nwb WA WB lrate i j m) s2
      (fun j s _ => bwdSlotA_B nrows nwa nwb WA WB lrate i j s)
    have hC1 := forLoop_proj Mem.C n (fun j m => bwdSlotA nrows nwa nwb WA WB lrate i j m) s1
      (fun j s _ => bwdSlotA_C nrows nwa nwb WA WB lrate i j s)
    have hC2 := forLoop_proj Mem.C n (fun j m => bwdSlotA nrows nwa nwb WA WB lrate i j m) s2
      (fun j s _ => bwdSlotA_C nrows nwa nwb WA WB lrate i j s)
    rw [forLoop_succ, forLoop_succ, bwdSlotA_eq, bwdSlotA_eq]
    simp only []
    by_cases hcol : nrows * WA (n + i * nwa) ≤ x ∧ x < nrows * WA (n + i * nwa) + nrows
    · rw [if_pos hcol, if_pos hcol, hB1, hB2, hC1, hC2, hB, hC]
    · rw [if_neg hcol, if_neg hcol]
      refine ih ?_
      rcases h with h | ⟨j, hj, hcolj⟩
      · exact Or.inl h
      · refine Or.inr ⟨j, ?_, hcolj⟩
        rcases Nat.lt_succ_iff_lt_or_eq.mp hj with h1 | h1
        · exact h1
        · exact absurd (h1 ▸ hcolj) hcol

/-- Two runs of the second half of a column from states with equal `B` and `C`
that agree on the columns of `A` named by the context slots of the column
produce equal `B`. -/
theorem bwdB_B_congr (nrows nwa nwb : Nat) (WA WB : Nat → Nat) (lrate : R) (i : Nat)
    (s1 s2 : Mem R) (hB : s1.B = s2.B) (hC : s1.C = s2.C)
    (hA : ∀ j x, j < nwa →
      (nrows * WA (j + i * nwa) ≤ x ∧ x < nrows * WA (j + i * nwa) + nrows) →
      s1.A x = s2.A x) :
    (bwdB nrows nwa nwb WA WB lrate i s1).B = (bwdB nrows nwa nwb WA WB lrate i s2).B := by
  unfold bwdB
  suffices gen : ∀ n : Nat,
      (forLoop n (fun k m => bwdSlotB nrows nwa nwb WA WB lrate i k m) s1).B =
        (forLoop n (fun k m => bwdSlotB nrows nwa nwb WA WB lrate i k m) s2).B from gen nwb
  intro n
  induction n with
  | zero => exact hB
  | succ n ih =>
    have hA1 := forLoop_proj Mem.A n (fun k m => bwdSlotB nrows nwa nwb WA WB lrate i k m) s1
      (fun k s _ => bwdSlotB_A nrows nwa nwb WA WB lrate i k s)
    have hA2 := forLoop_proj Mem.A n (fun k m => bwdSlotB nrows nwa nwb WA WB lrate i k m) s2
      (fun k s _ => bwdSlotB_A nrows nwa nwb WA WB lrate i k s)
    have hC1 := forLoop_proj Mem.C n (fun k m => bwdSlotB nrows nwa nwb WA WB lrate i k m) s1
      (fun k s _ => bwdSlotB_C nrows nwa nwb WA WB lrate i k s)
    have hC2 := forLoop_proj Mem.C n (fun k m => bwdSlotB nrows nwa nwb WA WB lrate i k m) s2
      (fun k s _ => bwdSlotB_C nrows nwa nwb WA WB lrate i k s)
    rw [forLoop_succ, forLoop_succ, bwdSlotB_eq, bwdSlotB_eq]
    simp only []
    funext x
    by_cases hcol : nrows * WB (n + i * nwb) ≤ x ∧ x < nrows * WB (n + i * nwb) + nrows
    · rw [if_pos hcol, if_pos hcol, hA1, hA2, hC1, hC2, hC]
      refine Finset.sum_congr rfl fun j hj => ?_
      rw [hA j _ (Finset.mem_range.mp hj) (by omega)]
    · rw [if_neg hcol, if_neg hcol, ih]

/-- Two calls of `word2vecBwd` that differ only in the pre-call `A` produce
equal `B`, and agree on each cell of `A` on which they agreed before or which
lies in a column named by a context slot of one of the `ncols` columns. -/
theorem word2vecBwd_congr (nrows ncols nwa nwb : Nat) (WA WB : Nat → Nat) (lrate : R)
    (s1 s2 : Mem R) (hB : s1.B = s2.B) (hC : s1.C = s2.C) :
    (word2vecBwd nrows ncols nwa nwb WA WB lrate s1).B =
        (word2vecBwd nrows ncols nwa nwb WA WB lrate s2).B ∧
      ∀ x, (s1.A x = s2.A x ∨ ∃ i j, i < ncols ∧ j < nwa ∧
          (nrows * WA (j + i * nwa) ≤ x ∧ x < nrows * WA (j + i * nwa) + nrows)) →
        (word2vecBwd nrows ncols nwa nwb WA WB lrate s1).A x =
          (word2vecBwd nrows ncols nwa nwb WA WB lrate s2).A x := by
  induction ncols with
  | zero =>
    refine ⟨hB, fun x h => ?_⟩
    rcases h with h | ⟨i, _, hi, _⟩
    · exact h
    · exact absurd hi (Nat.not_lt_zero i)
  | succ n ih =>
    obtain ⟨ihB, ihA⟩ := ih
    have hC12 : (word2vecBwd nrows n nwa nwb WA WB lrate s1).C =
        (word2vecBwd nrows n nwa nwb WA WB lrate s2).C := by
      rw [word2vecBwd_C, word2vecBwd_C, hC]
    have hstep : ∀ s : Mem R, word2vecBwd nrows (n + 1) nwa nwb WA WB lrate s =
        bwdColumn nrows nwa nwb WA WB lrate n (word2vecBwd nrows n nwa nwb WA WB lrate s) :=
      fun s => rfl
    have hAcol : ∀ x, (s1.A x = s2.A x ∨ ∃ i j, i < n + 1 ∧ j < nwa ∧
          (nrows * WA (j + i * nwa) ≤ x ∧ x < nrows * WA (j + i * nwa) + nrows)) →
        (bwdA nrows nwa nwb WA WB lrate n (word2vecBwd nrows n nwa nwb WA WB lrate s1)).A x =
          (bwdA nrows nwa nwb WA WB lrate n
            (word2vecBwd nrows n nwa nwb WA WB lrate s2)).A x := by
      intro x h
      refine bwdA_A_congr nrows nwa nwb WA WB lrate n _ _ ihB hC12 x ?_
      rcases h with h | ⟨i, j, hi, hj, hcol⟩
      · exact Or.inl (ihA x (Or.inl h))
      · rcases Nat.lt_succ_iff_lt_or_eq.mp hi with h1 | h1
        · exact Or.inl (ihA x (Or.inr ⟨i, j, h1, hj, hcol⟩))
        · subst h1
          exact Or.inr ⟨j, hj, hcol⟩
    rw [hstep, hstep]
    refine ⟨?_, fun x h => ?_⟩
    · unfold bwdColumn
      refine bwdB_B_congr nrows nwa nwb WA WB lrate n _ _ ?_ ?_ ?_
      · rw [bwdA_B, bwdA_B, ihB]
      · rw [bwdA_C, bwdA_C, hC12]
      · intro j x hj hcol
        exact hAcol x (Or.inr ⟨n, j, Nat.lt_succ_self n, hj, hcol⟩)
    · rw [bwdColumn_A, bwdColumn_A]
      exact hAcol x h

/-! ## `word2vecConv` -/

/-- The scratch index `j + skip` of offset `j = t - skip` is the loop counter `t`. -/
theorem offset_index (t skip : Nat) : (((t : Int) - (skip : Int)) + (skip : Int)).toNat = t := by
  rw [sub_add_cancel, Int.toNat_ofNat]

/-- The loop `Btmp[c] = 0` of lines 45-47. -/
theorem convClear_eq (nrows : Nat) (m : ConvMem R) :
    forLoop nrows (fun c m => { m with Btmp := Function.update m.Btmp c 0 }) m =
      { m with Btmp := fun c => if c < nrows then 0 else m.Btmp c } := by
  induction nrows with
  | zero =>
    rw [forLoop_zero]
    ext x <;> simp
  | succ n ih =>
    rw [forLoop_succ, ih]
    ext x <;> simp only [Function.update_apply]
    by_cases hx : x = n
    · subst hx
      rw [if_pos rfl, if_pos (Nat.lt_succ_self x)]
    · have h1 : x < n + 1 ↔ x < n := by omega
      simp [hx, h1]

/-- The loop of lines 51-54: `Btmp` collects `cv * A[:, ia]` from the values `A`
had on entry while `A[:, ia]` receives `cv * B[:, ib]`. -/
theorem convAxpy_loop_eq (nrows ia ib : Nat) (cv : R) (m : ConvMem R) :
    forLoop nrows (fun c m => convAxpy ia ib cv c m) m =
      { m with
        A := fun x =>
          if ia ≤ x ∧ x < ia + nrows then m.A x + cv * m.B (x - ia + ib) else m.A x
        Btmp := fun c => if c < nrows then m.Btmp c + cv * m.A (c + ia) else m.Btmp c } := by
  induction nrows with
  | zero =>
    rw [forLoop_zero]
    have h0 : ∀ x, ¬ (ia ≤ x ∧ x < ia + 0) := fun x => by omega
    have h1 : ∀ x : Nat, ¬ (x < 0) := fun x => Nat.not_lt_zero x
    ext x <;> simp only [h0, h1, if_false]
  | succ n ih =>
    rw [forLoop_succ, ih]
    unfold convAxpy
    ext x <;> simp only [Function.update_apply]
    · by_cases hx : x = n + ia
      · subst hx
        have h1 : ¬ (ia ≤ n + ia ∧ n + ia < ia + n) := by omega
        have h2 : ia ≤ n + ia ∧ n + ia < ia + (n + 1) := by omega
        have h3 : n + ia - ia + ib = n + ib := by omega
        rw [if_pos rfl, if_neg h1, if_pos h2, h3]
      · have h1 : (ia ≤ x ∧ x < ia + (n + 1)) ↔ (ia ≤ x ∧ x < ia + n) := by omega
        simp [hx, h1]
    · by_cases hx : x = n
      · subst hx
        have h1 : ¬ (ia ≤ x + ia ∧ x + ia < ia + x) := by omega
        rw [if_pos rfl, if_neg (Nat.lt_irrefl x), if_neg h1, if_pos (Nat.lt_succ_self x)]
      · have h1 : x < n + 1 ↔ x < n := by omega
        simp [hx, h1]

/-- The loop `B[c + ib] += Btmp[c]` of lines 56-58. -/
theorem convFlush_eq (nrows ib : Nat) (m : ConvMem R) :
    forLoop nrows
        (fun c m => { m with B := Function.update m.B (c + ib) (m.B (c + ib) + m.Btmp c) }) m =
      { m with B := fun x =>
          if ib ≤ x ∧ x < ib + nrows then m.B x + m.Btmp (x - ib) else m.B x } := by
  induction nrows with
  | zero =>
    rw [forLoop_zero]
    have h0 : ∀ x, ¬ (ib ≤ x ∧ x < ib + 0) := fun x => by omega
    ext x <;> simp only [h0, if_false]
  | succ n ih =>
    rw [forLoop_succ, ih]
    ext x <;> simp only [Function.update_apply]
    by_cases hx : x = n + ib
    · subst hx
      have h1 : ¬ (ib ≤ n + ib ∧ n + ib < ib + n) := by omega
      have h2 : ib ≤ n + ib ∧ n + ib < ib + (n + 1) := by omega
      rw [if_pos rfl, if_neg h1, if_pos h2, Nat.add_sub_cancel]
    · have h1 : (ib ≤ x ∧ x < ib + (n + 1)) ↔ (ib ≤ x ∧ x < ib + n) := by omega
      simp [hx, h1]

/-- An offset that fails the guard of line 48 leaves `A`, `B` and `C` alone:
`Btmp` is cleared and the zeros are added to `B[:, W[i]]`. -/
theorem convUpdate_invalid (nrows ncols skip : Nat) (W : Nat → Nat) (lrate : R) (i t : Nat)
    (m : ConvMem R) (h : validOffset ncols i ((t : Int) - (skip : Int)) = false) :
    convUpdate nrows ncols skip W lrate i t m =
      { m with Btmp := fun c => if c < nrows then 0 else m.Btmp c } := by
  unfold convUpdate
  simp only [h, Bool.false_eq_true, if_false]
  rw [convClear_eq, convFlush_eq]
  ext x <;> simp only []
  by_cases hx : W i ≤ x ∧ x < W i + nrows
  · have h1 : x - W i < nrows := by omega
    rw [if_pos hx, if_pos h1, add_zero]
  · rw [if_neg hx]

/-- An offset that passes the guard of line 48, in closed form: with
`cv = lrate * C[j + skip]`, `A[:, ia] += cv * B[:, ib]` and
`B[:, ib] += cv * A[:, ia]`, both from the values on entry. -/
theorem convUpdate_valid (nrows ncols skip : Nat) (W : Nat → Nat) (lrate : R) (i t : Nat)
    (m : ConvMem R) (h : validOffset ncols i ((t : Int) - (skip : Int)) = true) :
    convUpdate nrows ncols skip W lrate i t m =
      { A := fun x =>
          if W ((i : Int) + ((t : Int) - (skip : Int))).toNat ≤ x ∧
              x < W ((i : Int) + ((t : Int) - (skip : Int))).toNat + nrows then
            m.A x + lrate * m.C t *
              m.B (x - W ((i : Int) + ((t : Int) - (skip : Int))).toNat + W i)
          else m.A x
        B := fun x =>
          if W i ≤ x ∧ x < W i + nrows then
            m.B x + lrate * m.C t *
              m.A (x - W i + W ((i : Int) + ((t : Int) - (skip : Int))).toNat)
          else m.B x
        C := m.C
        Btmp := fun c =>
          if c < nrows then
            lrate * m.C t * m.A (c + W ((i : Int) + ((t : Int) - (skip : Int))).toNat)
          else m.Btmp c } := by
  unfold convUpdate
  simp only [h, if_true]
  rw [convClear_eq, convAxpy_loop_eq, convFlush_eq, offset_index]
  ext x <;> simp only []
  · by_cases hx : W i ≤ x ∧ x < W i + nrows
    · have h1 : x - W i < nrows := by omega
      rw [if_pos hx, if_pos hx, if_pos h1, if_pos h1, zero_add]
    · rw [if_neg hx, if_neg hx]
  · by_cases hx : x < nrows
    · rw [if_pos hx, if_pos hx, if_pos hx, zero_add]
    · rw [if_neg hx, if_neg hx, if_neg hx]

/-- An offset that fails the guard of line 23 writes nothing. -/
theorem convScore_invalid (ex : R → R) (nrows ncols skip : Nat) (W : Nat → Nat) (i t : Nat)
    (m : ConvMem R) (h : validOffset ncols i ((t : Int) - (skip : Int)) = false) :
    convScore ex nrows ncols skip W i t m = m := by
  unfold convScore
  simp only [h, Bool.false_eq_true, if_false]

/-- An offset that passes the guard of line 23 stores `1 - t(score)` in
`C[j + skip]`. -/
theorem convScore_valid (ex : R → R) (nrows ncols skip : Nat) (W : Nat → Nat) (i t : Nat)
    (m : ConvMem R) (h : validOffset ncols i ((t : Int) - (skip : Int)) = true) :
    convScore ex nrows ncols skip W i t m =
      { m with
        C := Function.update m.C t (1 - clampedLogistic ex
          (dot nrows m.A m.B (W ((i : Int) + ((t : Int) - (skip : Int))).toNat) (W i))) } := by
  unfold convScore
  simp only [h, if_true]
  rw [offset_index]

theorem convScore_A (ex : R → R) (nrows ncols skip : Nat) (W : Nat → Nat) (i t : Nat)
    (m : ConvMem R) : (convScore ex nrows ncols skip W i t m).A = m.A := by
  cases h : validOffset ncols i ((t : Int) - (skip : Int))
  · rw [convScore_invalid ex nrows ncols skip W i t m h]
  · rw [convScore_valid ex nrows ncols skip W i t m h]

theorem convScore_B (ex : R → R) (nrows ncols skip : Nat) (W : Nat → Nat) (i t : Nat)
    (m : ConvMem R) : (convScore ex nrows ncols skip W i t m).B = m.B := by
  cases h : validOffset ncols i ((t : Int) - (skip : Int))
  · rw [convScore_invalid ex nrows ncols skip W i t m h]
  · rw [convScore_valid ex nrows ncols skip W i t m h]

/-- An observation that no iteration from `t0` on changes has, after the loop,
the value it had after the first `t0` iterations (any state type). -/
theorem forLoop_tail {σ α : Type} (f : σ → α) (n t0 : Nat) (body : Nat → σ → σ) (s : σ)
    (h : t0 ≤ n) (hkeep : ∀ t s, t0 ≤ t → t < n → f (body t s) = f s) :
    f (forLoop n body s) = f (forLoop t0 body s) := by
  induction n with
  | zero =>
    rw [Nat.le_zero.mp h]
  | succ n ih =>
    rcases Nat.lt_or_ge t0 (n + 1) with hlt | hge
    · rw [forLoop_succ, hkeep n _ (Nat.lt_succ_iff.mp hlt) (Nat.lt_succ_self n)]
      exact ih (Nat.lt_succ_iff.mp hlt) fun t s h1 h2 => hkeep t s h1 (Nat.lt_succ_of_lt h2)
    · rw [Nat.le_antisymm h hge]

theorem convScores_A (ex : R → R) (nrows ncols skip : Nat) (W : Nat → Nat) (i n : Nat)
    (m : ConvMem R) :
    (forLoop n (fun t m => convScore ex nrows ncols skip W i t m) m).A = m.A :=
  forLoop_proj ConvMem.A _ _ _ fun t s _ => convScore_A ex nrows ncols skip W i t s

theorem convScores_B (ex : R → R) (nrows ncols skip : Nat) (W : Nat → Nat) (i n : Nat)
    (m : ConvMem R) :
    (forLoop n (fun t m => convScore ex nrows ncols skip W i t m) m).B = m.B :=
  forLoop_proj ConvMem.B _ _ _ fun t s _ => convScore_B ex nrows ncols skip W i t s

/-- After the score pass of position `i`, the scratch cell of every offset that
passes the guard holds `1 - t(score)` for the `A` and `B` of before the pass. -/
theorem convScores_C (ex : R → R) (nrows ncols skip : Nat) (W : Nat → Nat) (i n t0 : Nat)
    (m : ConvMem R) (ht0 : t0 < n)
    (hval : validOffset ncols i ((t0 : Int) - (skip : Int)) = true) :
    (forLoop n (fun t m => convScore ex nrows ncols skip W i t m) m).C t0 =
      1 - clampedLogistic ex
        (dot nrows m.A m.B (W ((i : Int) + ((t0 : Int) - (skip : Int))).toNat) (W i)) := by
  refine forLoop_establish (fun s : ConvMem R => s.A = m.A ∧ s.B = m.B)
    (fun s : ConvMem R => s.C t0 = 1 - clampedLogistic ex
      (dot nrows m.A m.B (W ((i : Int) + ((t0 : Int) - (skip : Int))).toNat) (W i)))
    n t0 _ m ht0 ⟨rfl, rfl⟩ ?_ ?_ ?_
  · intro t s _ hs
    exact ⟨(convScore_A ex nrows ncols skip W i t s).trans hs.1,
      (convScore_B ex nrows ncols skip W i t s).trans hs.2⟩
  · intro s hs
    rw [convScore_valid ex nrows ncols skip W i t0 s hval]
    simp only [Function.update_same, hs.1, hs.2]
  · intro t s htt _ _ hP
    cases h : validOffset ncols i ((t : Int) - (skip : Int))
    · rw [convScore_invalid ex nrows ncols skip W i t s h]
      exact hP
    · rw [convScore_valid ex nrows ncols skip W i t s h]
      simp only []
      rw [Function.update_noteq (Nat.ne_of_lt htt)]
      exact hP

/-- Two loops whose bodies keep a relation between their states keep it. -/
theorem forLoop_rel {σ : Type} (Rel : σ → σ → Prop) (n : Nat) (body1 body2 : Nat → σ → σ)
    (s1 s2 : σ) (h0 : Rel s1 s2)
    (hstep : ∀ t a b, t < n → Rel a b → Rel (body1 t a) (body2 t b)) :
    Rel (forLoop n body1 s1) (forLoop n body2 s2) := by
  induction n with
  | zero => exact h0
  | succ n ih =>
    rw [forLoop_succ, forLoop_succ]
    exact hstep n _ _ (Nat.lt_succ_self n)
      (ih fun t a b ht hab => hstep t a b (Nat.lt_succ_of_lt ht) hab)

/-- A loop of steps each of which either clears an observed cell or keeps it:
if some iteration clears it the cell ends as `0`, if none does it keeps its
value. -/
theorem forLoop_zeroing {σ : Type} (f : σ → R) (P : Nat → Prop) (n : Nat)
    (body : Nat → σ → σ) (s : σ)
    (hz : ∀ t s, t < n → P t → f (body t s) = 0)
    (hk : ∀ t s, t < n → ¬ P t → f (body t s) = f s) :
    ((∃ t, t < n ∧ P t) → f (forLoop n body s) = 0) ∧
      ((∀ t, t < n → ¬ P t) → f (forLoop n body s) = f s) := by
  induction n with
  | zero =>
    exact ⟨fun ⟨t, ht, _⟩ => absurd ht (Nat.not_lt_zero t), fun _ => rfl⟩
  | succ n ih =>
    obtain ⟨ih1, ih2⟩ := ih (fun t s ht => hz t s (Nat.lt_succ_of_lt ht))
      (fun t s ht => hk t s (Nat.lt_succ_of_lt ht))
    rw [forLoop_succ]
    by_cases hn : P n
    · exact ⟨fun _ => hz n _ (Nat.lt_succ_self n) hn,
        fun h => absurd hn (h n (Nat.lt_succ_self n))⟩
    · rw [hk n _ (Nat.lt_succ_self n) hn]
      refine ⟨fun ⟨t, ht, hP⟩ => ih1 ⟨t, ?_, hP⟩,
        fun h => ih2 fun t ht => h t (Nat.lt_succ_of_lt ht)⟩
      rcases Nat.lt_succ_iff_lt_or_eq.mp ht with h1 | h1
      · exact h1
      · exact absurd (h1 ▸ hP) hn

/-- The guard of lines 23 and 48 rejects the offset `0`. -/
theorem validOffset_zero (ncols i : Nat) : validOffset ncols i 0 = false := by
  simp [validOffset]

/-- The guard of lines 23 and 48 only passes offsets with `0 ≤ i + j < ncols`. -/
theorem validOffset_bounds {ncols i : Nat} {j : Int} (h : validOffset ncols i j = true) :
    j ≠ 0 ∧ 0 ≤ (i : Int) + j ∧ (i : Int) + j < (ncols : Int) := by
  simpa [validOffset, and_assoc] using h

/-- The update pass of one position reads `C` only at the offsets that pass
the guard: two states with equal `A` and `B` whose `C` agree there are taken
to states with equal `A` and `B`. -/
theorem convUpdates_congr (nrows ncols skip : Nat) (W : Nat → Nat) (lrate : R) (i n : Nat)
    (s1 s2 : ConvMem R) (hA : s1.A = s2.A) (hB : s1.B = s2.B)
    (hC : ∀ t : Nat, t < n → validOffset ncols i ((t : Int) - (skip : Int)) = true →
      s1.C t = s2.C t) :
    (forLoop n (fun t m => convUpdate nrows ncols skip W lrate i t m) s1).A =
        (forLoop n (fun t m => convUpdate nrows ncols skip W lrate i t m) s2).A ∧
      (forLoop n (fun t m => convUpdate nrows ncols skip W lrate i t m) s1).B =
        (forLoop n (fun t m => convUpdate nrows ncols skip W lrate i t m) s2).B := by
  have h := forLoop_rel
    (fun a b : ConvMem R => a.A = b.A ∧ a.B = b.B ∧
      ∀ t : Nat, t < n → validOffset ncols i ((t : Int) - (skip : Int)) = true →
        a.C t = b.C t)
    n (fun t m => convUpdate nrows ncols skip W lrate i t m)
    (fun t m => convUpdate nrows ncols skip W lrate i t m) s1 s2 ⟨hA, hB, hC⟩
    (fun t a b ht hab => by
      obtain ⟨h1, h2, h3⟩ := hab
      beta_reduce
      cases hv : validOffset ncols i ((t : Int) - (skip : Int))
      · rw [convUpdate_invalid nrows ncols skip W lrate i t a hv,
          convUpdate_invalid nrows ncols skip W lrate i t b hv]
        exact ⟨h1, h2, h3⟩
      · rw [convUpdate_valid nrows ncols skip W lrate i t a hv,
          convUpdate_valid nrows ncols skip W lrate i t b hv]
        simp only [h1, h2, h3 t ht hv]
        exact ⟨trivial, trivial, h3⟩)
  exact ⟨h.1, h.2.1⟩

/-- A position none of whose offsets passes the guard leaves `A` and `B` alone. -/
theorem convPosition_no_offset (ex : R → R) (nrows ncols skip : Nat) (W : Nat → Nat) (lrate : R)
    (i : Nat) (m : ConvMem R)
    (h : ∀ t, t < 2 * skip + 1 → validOffset ncols i ((t : Int) - (skip : Int)) = false) :
    (convPosition ex nrows ncols skip W lrate i m).A = m.A ∧
      (convPosition ex nrows ncols skip W lrate i m).B = m.B := by
  unfold convPosition
  constructor
  · rw [forLoop_proj ConvMem.A _ _ _ fun t s ht => by
      rw [convUpdate_invalid nrows ncols skip W lrate i t s (h t ht)]]
    exact convScores_A ex nrows ncols skip W i _ m
  · rw [forLoop_proj ConvMem.B _ _ _ fun t s ht => by
      rw [convUpdate_invalid nrows ncols skip W lrate i t s (h t ht)]]
    exact convScores_B ex nrows ncols skip W i _ m

/-- A column of `word2vec` with no context slot or no paired slot leaves `A`
and `B` alone. -/
theorem pairColumn_degenerate (ex : R → R) (nrows nwa nwb : Nat) (WA WB : Nat → Nat)
    (lrate : R) (i : Nat) (m : Mem R) (h : nwa = 0 ∨ nwb = 0) :
    (pairColumn ex nrows nwa nwb WA WB lrate i m).A = m.A ∧
      (pairColumn ex nrows nwa nwb WA WB lrate i m).B = m.B := by
  unfold pairColumn
  rw [pairUpdateB_eq, pairUpdateA_eq]
  simp only []
  rw [pairScores_A, pairScores_B]
  rcases h with h | h <;> subst h <;> constructor <;> funext x <;> simp

/-! ## `word2vecBwd`: frame, degenerate sizes and scaling -/

/-- The second half of a column leaves alone every column of `B` that no
paired slot of the column names. -/
theorem bwdB_B_untouched (nrows nwa nwb : Nat) (WA WB : Nat → Nat) (lrate : R) (i : Nat)
    (m : Mem R) (w c : Nat) (hc : c < nrows) (h : ∀ k, k < nwb → WB (k + i * nwb) ≠ w) :
    (bwdB nrows nwa nwb WA WB lrate i m).B (c + nrows * w) = m.B (c + nrows * w) := by
  unfold bwdB
  refine forLoop_proj (fun s : Mem R => s.B (c + nrows * w)) _ _ _ fun k s hk => ?_
  simp only []
  rw [bwdSlotB_eq]
  simp only [col_mem_iff hc, h k hk, if_false]

/-- A column of `word2vecBwd` leaves alone every column of `B` that no paired
slot of the column names. -/
theorem bwdColumn_B_untouched (nrows nwa nwb : Nat) (WA WB : Nat → Nat) (lrate : R) (i : Nat)
    (m : Mem R) (w c : Nat) (hc : c < nrows) (h : ∀ k, k < nwb → WB (k + i * nwb) ≠ w) :
    (bwdColumn nrows nwa nwb WA WB lrate i m).B (c + nrows * w) = m.B (c + nrows * w) := by
  unfold bwdColumn
  rw [bwdB_B_untouched nrows nwa nwb WA WB lrate i _ w c hc h, bwdA_B]

/-- The column of `A` named by slot `j` of column `i`, when no later slot of
column `i` and no later column names the same id, ends the call as the
weighted sum of that slot over the `B` of after the first `i` columns. -/
theorem word2vecBwd_A_last (nrows ncols nwa nwb : Nat) (WA WB : Nat → Nat) (lrate : R)
    (m : Mem R) (i j c : Nat) (hi : i < ncols) (hj : j < nwa) (hc : c < nrows)
    (hlast : ∀ i1 j1, i1 < ncols → j1 < nwa → (i < i1 ∨ (i1 = i ∧ j < j1)) →
      WA (j1 + i1 * nwa) ≠ WA (j + i * nwa)) :
    (word2vecBwd nrows ncols nwa nwb WA WB lrate m).A (c + nrows * WA (j + i * nwa)) =
      ∑ k in Finset.range nwb, lrate * m.C (j + nwa * (k + nwb * i)) *
        (word2vecBwd nrows i nwa nwb WA WB lrate m).B (c + nrows * WB (k + i * nwb)) := by
  have h1 := forLoop_tail (fun s : Mem R => s.A (c + nrows * WA (j + i * nwa))) ncols
    (i + 1) (fun i m => bwdColumn nrows nwa nwb WA WB lrate i m) m hi
    (fun t s h1 h2 => bwdColumn_A_untouched nrows nwa nwb WA WB lrate t s _ c hc
      (fun j1 hj1 => hlast t j1 h2 hj1 (Or.inl h1)))
  refine h1.trans ?_
  rw [forLoop_succ]
  simp only []
  rw [bwdColumn_A, bwdA_A_last nrows nwa nwb WA WB lrate i _ j c hj hc
    (fun j1 h1 h2 => hlast i j1 hi h2 (Or.inr ⟨rfl, h1⟩))]
  refine Finset.sum_congr rfl fun k _ => ?_
  have hC := word2vecBwd_C nrows i nwa nwb WA WB lrate m
  unfold word2vecBwd at hC ⊢
  rw [hC]

/-- With `lrate = 0` or no paired slot, slot `j` of the first half of a column
only clears the column of `A` it names. -/
theorem bwdSlotA_clears (nrows nwa nwb : Nat) (WA WB : Nat → Nat) (lrate : R) (i j : Nat)
    (m : Mem R) (h : lrate = 0 ∨ nwb = 0) :
    bwdSlotA nrows nwa nwb WA WB lrate i j m =
      { m with A := fun x =>
          if nrows * WA (j + i * nwa) ≤ x ∧ x < nrows * WA (j + i * nwa) + nrows then 0
          else m.A x } := by
  rw [bwdSlotA_eq]
  rcases h with h | h <;> subst h <;> simp

/-- With `lrate = 0` or no context slot, slot `k` of the second half of a
column only clears the column of `B` it names. -/
theorem bwdSlotB_clears (nrows nwa nwb : Nat) (WA WB : Nat → Nat) (lrate : R) (i k : Nat)
    (m : Mem R) (h : lrate = 0 ∨ nwa = 0) :
    bwdSlotB nrows nwa nwb WA WB lrate i k m =
      { m with B := fun x =>
          if nrows * WB (k + i * nwb) ≤ x ∧ x < nrows * WB (k + i * nwb) + nrows then 0
          else m.B x } := by
  rw [bwdSlotB_eq]
  rcases h with h | h <;> subst h <;> simp

/-- With `lrate = 0` or no paired slot, a call of `word2vecBwd` clears the
columns of `A` named by the context slots and keeps the other columns. -/
theorem word2vecBwd_A_clears (nrows ncols nwa nwb : Nat) (WA WB : Nat → Nat) (lrate : R)
    (m : Mem R) (h : lrate = 0 ∨ nwb = 0) (v c : Nat) (hc : c < nrows) :
    ((∃ i j, i < ncols ∧ j < nwa ∧ WA (j + i * nwa) = v) →
        (word2vecBwd nrows ncols nwa nwb WA WB lrate m).A (c + nrows * v) = 0) ∧
      ((∀ i j, i < ncols → j < nwa → WA (j + i * nwa) ≠ v) →
        (word2vecBwd nrows ncols nwa nwb WA WB lrate m).A (c + nrows * v) =
          m.A (c + nrows * v)) := by
  have hcol : ∀ (i : Nat) (s : Mem R),
      ((∃ j, j < nwa ∧ WA (j + i * nwa) = v) →
        (bwdColumn nrows nwa nwb WA WB lrate i s).A (c + nrows * v) = 0) ∧
      ((∀ j, j < nwa → ¬ WA (j + i * nwa) = v) →
        (bwdColumn nrows nwa nwb WA WB lrate i s).A (c + nrows * v) = s.A (c + nrows * v)) := by
    intro i s
    rw [bwdColumn_A]
    exact forLoop_zeroing (fun s : Mem R => s.A (c + nrows * v))
      (fun j => WA (j + i * nwa) = v) nwa
      (fun j m => bwdSlotA nrows nwa nwb WA WB lrate i j m) s
      (fun j s _ hP => by
        beta_reduce
        rw [bwdSlotA_clears nrows nwa nwb WA WB lrate i j s h]
        simp only [col_mem_iff hc, hP, if_true])
      (fun j s _ hP => by
        beta_reduce
        rw [bwdSlotA_clears nrows nwa nwb WA WB lrate i j s h]
        simp only [col_mem_iff hc, hP, if_false])
  have hloop := forLoop_zeroing (fun s : Mem R => s.A (c + nrows * v))
    (fun i => ∃ j, j < nwa ∧ WA (j + i * nwa) = v) ncols
    (fun i m => bwdColumn nrows nwa nwb WA WB lrate i m) m
    (fun i s _ hP => (hcol i s).1 hP)
    (fun i s _ hP => (hcol i s).2 fun j hj hj2 => hP ⟨j, hj, hj2⟩)
  constructor
  · rintro ⟨i, j, hi, hj, hv⟩
    exact hloop.1 ⟨i, hi, j, hj, hv⟩
  · intro hno
    exact hloop.2 fun i hi ⟨j, hj, hv⟩ => hno i j hi hj hv

/-- With `lrate = 0` or no context slot, a call of `word2vecBwd` clears the
columns of `B` named by the paired slots and keeps the other columns. -/
theorem word2vecBwd_B_clears (nrows ncols nwa nwb : Nat) (WA WB : Nat → Nat) (lrate : R)
    (m : Mem R) (h : lrate = 0 ∨ nwa = 0) (w c : Nat) (hc : c < nrows) :
    ((∃ i k, i < ncols ∧ k < nwb ∧ WB (k + i * nwb) = w) →
        (word2vecBwd nrows ncols nwa nwb WA WB lrate m).B (c + nrows * w) = 0) ∧
      ((∀ i k, i < ncols → k < nwb → WB (k + i * nwb) ≠ w) →
        (word2vecBwd nrows ncols nwa nwb WA WB lrate m).B (c + nrows * w) =
          m.B (c + nrows * w)) := by
  have hcol : ∀ (i : Nat) (s : Mem R),
      ((∃ k, k < nwb ∧ WB (k + i * nwb) = w) →
        (bwdColumn nrows nwa nwb WA WB lrate i s).B (c + nrows * w) = 0) ∧
      ((∀ k, k < nwb → ¬ WB (k + i * nwb) = w) →
        (bwdColumn nrows nwa nwb WA WB lrate i s).B (c + nrows * w) = s.B (c + nrows * w)) := by
    intro i s
    have hB := bwdA_B nrows nwa nwb WA WB lrate i s
    unfold bwdColumn bwdB
    rw [← hB]
    exact forLoop_zeroing (fun s : Mem R => s.B (c + nrows * w))
      (fun k => WB (k + i * nwb) = w) nwb
      (fun k m => bwdSlotB nrows nwa nwb WA WB lrate i k m) _
      (fun k s _ hP => by
        beta_reduce
        rw [bwdSlotB_clears nrows nwa nwb WA WB lrate i k s h]
        simp only [col_mem_iff hc, hP, if_true])
      (fun k s _ hP => by
        beta_reduce
        rw [bwdSlotB_clears nrows nwa nwb WA WB lrate i k s h]
        simp only [col_mem_iff hc, hP, if_false])
  have hloop := forLoop_zeroing (fun s : Mem R => s.B (c + nrows * w))
    (fun i => ∃ k, k < nwb ∧ WB (k + i * nwb) = w) ncols
    (fun i m => bwdColumn nrows nwa nwb WA WB lrate i m) m
    (fun i s _ hP => (hcol i s).1 hP)
    (fun i s _ hP => (hcol i s).2 fun k hk hk2 => hP ⟨k, hk, hk2⟩)
  constructor
  · rintro ⟨i, k, hi, hk, hv⟩
    exact hloop.1 ⟨i, hi, k, hk, hv⟩
  · intro hno
    exact hloop.2 fun i hi ⟨k, hk, hv⟩ => hno i k hi hk hv

/-- A call of `word2vecBwd` with rate `lrate` and a call with rate `1` on the
score buffer multiplied by `lrate` go through states with equal `A` and `B`. -/
theorem word2vecBwd_scale (nrows ncols nwa nwb : Nat) (WA WB : Nat → Nat) (lrate : R)
    (s1 s2 : Mem R) (hA : s1.A = s2.A) (hB : s1.B = s2.B)
    (hC : s2.C = fun x => lrate * s1.C x) :
    (word2vecBwd nrows ncols nwa nwb WA WB lrate s1).A =
        (word2vecBwd nrows ncols nwa nwb WA WB 1 s2).A ∧
      (word2vecBwd nrows ncols nwa nwb WA WB lrate s1).B =
        (word2vecBwd nrows ncols nwa nwb WA WB 1 s2).B := by
  have hcol : ∀ (i : Nat) (a b : Mem R),
      (a.A = b.A ∧ a.B = b.B ∧ b.C = fun x => lrate * a.C x) →
      ((bwdColumn nrows nwa nwb WA WB lrate i a).A = (bwdColumn nrows nwa nwb WA WB 1 i b).A ∧
        (bwdColumn nrows nwa nwb WA WB lrate i a).B =
          (bwdColumn nrows nwa nwb WA WB 1 i b).B ∧
        (bwdColumn nrows nwa nwb WA WB 1 i b).C =
          fun x => lrate * (bwdColumn nrows nwa nwb WA WB lrate i a).C x) := by
    intro i a b hab
    have h1 := forLoop_rel
      (fun a b : Mem R => a.A = b.A ∧ a.B = b.B ∧ b.C = fun x => lrate * a.C x) nwa
      (fun j m => bwdSlotA nrows nwa nwb WA WB lrate i j m)
      (fun j m => bwdSlotA nrows nwa nwb WA WB 1 i j m) a b hab
      (fun j a b _ hab => by
        obtain ⟨h1, h2, h3⟩ := hab
        beta_reduce
        rw [bwdSlotA_eq, bwdSlotA_eq]
        simp only [h1, h2, h3, one_mul]
        exact ⟨trivial, trivial, trivial⟩)
    have h2 := forLoop_rel
      (fun a b : Mem R => a.A = b.A ∧ a.B = b.B ∧ b.C = fun x => lrate * a.C x) nwb
      (fun k m => bwdSlotB nrows nwa nwb WA WB lrate i k m)
      (fun k m => bwdSlotB nrows nwa nwb WA WB 1 i k m) _ _ h1
      (fun k a b _ hab => by
        obtain ⟨h1, h2, h3⟩ := hab
        beta_reduce
        rw [bwdSlotB_eq, bwdSlotB_eq]
        simp only [h1, h2, h3, one_mul]
        exact ⟨trivial, trivial, trivial⟩)
    exact h2
  have h := forLoop_rel
    (fun a b : Mem R => a.A = b.A ∧ a.B = b.B ∧ b.C = fun x => lrate * a.C x) ncols
    (fun i m => bwdColumn nrows nwa nwb WA WB lrate i m)
    (fun i m => bwdColumn nrows nwa nwb WA WB 1 i m) s1 s2 ⟨hA, hB, hC⟩
    (fun i a b _ hab => hcol i a b hab)
  exact ⟨h.1, h.2.1⟩

/-! ## `word2vec`: frame -/

/-- A column of `word2vec` leaves alone every column of `A` that no context
slot of the column names. -/
theorem pairColumn_A_untouched (ex : R → R) (nrows nwa nwb : Nat) (WA WB : Nat → Nat)
    (lrate : R) (i : Nat) (m : Mem R) (v c : Nat) (hc : c < nrows)
    (h : ∀ j, j < nwa → WA (j + i * nwa) ≠ v) :
    (pairColumn ex nrows nwa nwb WA WB lrate i m).A (c + nrows * v) = m.A (c + nrows * v) := by
  unfold pairColumn
  rw [pairUpdateB_A, pairUpdateA_col _ _ _ _ _ _ _ _ v c hc, pairScores_A]
  rw [Finset.sum_eq_zero fun j hj => if_neg (h j (Finset.mem_range.mp hj)), mul_zero, add_zero]

/-- A column of `word2vec` leaves alone every column of `B` that no paired
slot of the column names. -/
theorem pairColumn_B_untouched (ex : R → R) (nrows nwa nwb : Nat) (WA WB : Nat → Nat)
    (lrate : R) (i : Nat) (m : Mem R) (w c : Nat) (hc : c < nrows)
    (h : ∀ k, k < nwb → WB (k + i * nwb) ≠ w) :
    (pairColumn ex nrows nwa nwb WA WB lrate i m).B (c + nrows * w) = m.B (c + nrows * w) := by
  unfold pairColumn
  rw [pairUpdateB_col _ _ _ _ _ _ _ _ w c hc, pairUpdateA_B, pairScores_B]
  rw [Finset.sum_eq_zero fun k hk => if_neg (h k (Finset.mem_range.mp hk)), mul_zero, add_zero]

/-- The index `j + nwa*(k + nwb*i)` of an in-range triple is below
`nwa*nwb*ncols`. -/
theorem scoreIdx_lt {nwa nwb ncols i j k : Nat} (hi : i < ncols) (hj : j < nwa) (hk : k < nwb) :
    j + nwa * (k + nwb * i) < nwa * nwb * ncols := by
  have h1 : nwb * (i + 1) ≤ nwb * ncols := Nat.mul_le_mul_left nwb hi
  rw [Nat.mul_add, Nat.mul_one] at h1
  have h2 : nwa * (k + nwb * i + 1) ≤ nwa * (nwb * ncols) := Nat.mul_le_mul_left nwa (by omega)
  rw [Nat.mul_add, Nat.mul_one, ← Nat.mul_assoc] at h2
  omega

/-! ## `word2vecFwd`: the store log -/

/-- Two loops over different state types whose bodies keep a relation between
the states keep it. -/
theorem forLoop_sim {σ τ : Type} (Rel : σ → τ → Prop) (n : Nat) (body1 : Nat → σ → σ)
    (body2 : Nat → τ → τ) (s1 : σ) (s2 : τ) (h0 : Rel s1 s2)
    (hstep : ∀ t a b, t < n → Rel a b → Rel (body1 t a) (body2 t b)) :
    Rel (forLoop n body1 s1) (forLoop n body2 s2) := by
  induction n with
  | zero => exact h0
  | succ n ih =>
    rw [forLoop_succ, forLoop_succ]
    exact hstep n _ _ (Nat.lt_succ_self n)
      (ih fun t a b ht hab => hstep t a b (Nat.lt_succ_of_lt ht) hab)

/-- A counter that iteration `t` raises by `h t` is raised by the loop by the
sum of the `h t`. -/
theorem forLoop_count {σ : Type} (cnt : σ → Nat) (h : Nat → Nat) (n : Nat)
    (body : Nat → σ → σ) (s : σ) (hstep : ∀ t s, t < n → cnt (body t s) = cnt s + h t) :
    cnt (forLoop n body s) = cnt s + ∑ t in Finset.range n, h t := by
  induction n with
  | zero => simp [forLoop_zero]
  | succ n ih =>
    rw [forLoop_succ, hstep n _ (Nat.lt_succ_self n),
      ih fun t s ht => hstep t s (Nat.lt_succ_of_lt ht), Finset.sum_range_succ, Nat.add_assoc]

/-- The kernel `word2vecFwd` does what its store log says: `A` and `B` are
kept and `C` is the pre-call `C` with the logged stores executed in order. -/
theorem word2vecFwd_eq_replay (nrows ncols nwa nwb : Nat) (WA WB : Nat → Nat) (m : Mem R) :
    (word2vecFwd nrows ncols nwa nwb WA WB m).C =
      replayStores (fwdStores nrows ncols nwa nwb WA WB m.A m.B) m.C := by
  have h := forLoop_sim
    (fun (s : Mem R) (l : List (Nat × R)) =>
      s.A = m.A ∧ s.B = m.B ∧ s.C = replayStores l m.C) ncols
    (fun i m => fwdColumn nrows nwa nwb WA WB i m)
    (fun i l =>
      forLoop nwa (fun j l =>
        forLoop nwb (fun k l =>
          l ++ [(j + nwa * (k + nwb * i),
            dot nrows m.A m.B (nrows * WA (j + i * nwa)) (nrows * WB (k + i * nwb)))]) l) l)
    m [] ⟨rfl, rfl, rfl⟩
    (fun i a b _ hab =>
      forLoop_sim
        (fun (s : Mem R) (l : List (Nat × R)) =>
          s.A = m.A ∧ s.B = m.B ∧ s.C = replayStores l m.C) nwa _ _ a b hab
        (fun j a b _ hab =>
          forLoop_sim
            (fun (s : Mem R) (l : List (Nat × R)) =>
              s.A = m.A ∧ s.B = m.B ∧ s.C = replayStores l m.C) nwb _ _ a b hab
            (fun k a b _ hab => by
              obtain ⟨h1, h2, h3⟩ := hab
              refine ⟨h1, h2, ?_⟩
              simp only [fwdCell, replayStores, List.foldl_append, List.foldl_cons,
                List.foldl_nil, h1, h2]
              rw [h3]
              rfl)))
  exact h.2.2

/-- The number of logged stores of `word2vecFwd` to cell `x`, as a sum over the
iterations. -/
theorem fwdStores_count_sum (nrows ncols nwa nwb : Nat) (WA WB : Nat → Nat) (A B : Nat → R)
    (x : Nat) :
    ((fwdStores nrows ncols nwa nwb WA WB A B).map Prod.fst).count x =
      ∑ i in Finset.range ncols, ∑ j in Finset.range nwa, ∑ k in Finset.range nwb,
        if j + nwa * (k + nwb * i) = x then 1 else 0 := by
  unfold fwdStores
  rw [forLoop_count (fun l : List (Nat × R) => (l.map Prod.fst).count x)
    (fun i => ∑ j in Finset.range nwa, ∑ k in Finset.range nwb,
      if j + nwa * (k + nwb * i) = x then 1 else 0) ncols _ []
    (fun i l _ =>
      forLoop_count (fun l : List (Nat × R) => (l.map Prod.fst).count x)
        (fun j => ∑ k in Finset.range nwb, if j + nwa * (k + nwb * i) = x then 1 else 0)
        nwa _ l
        (fun j l _ =>
          forLoop_count (fun l : List (Nat × R) => (l.map Prod.fst).count x)
            (fun k => if j + nwa * (k + nwb * i) = x then 1 else 0) nwb _ l
            (fun k l _ => by
              simp only [List.map_append, List.map_cons, List.map_nil, List.count_append,
                List.count_singleton, beq_iff_eq])))]
  simp

/-- Among the in-range triples exactly one has index `x` when
`x < nwa*nwb*ncols`, and none has otherwise. -/
theorem scoreIdx_count (nwa nwb ncols x : Nat) :
    (∑ i in Finset.range ncols, ∑ j in Finset.range nwa, ∑ k in Finset.range nwb,
        if j + nwa * (k + nwb * i) = x then 1 else 0) =
      if x < nwa * nwb * ncols then 1 else 0 := by
  by_cases hx : x < nwa * nwb * ncols
  · rw [if_pos hx]
    obtain ⟨hi, hj, hk, hdec⟩ := scoreIdx_decode nwa nwb ncols x hx
    rw [Finset.sum_eq_single_of_mem (x / (nwa * nwb)) (Finset.mem_range.mpr hi)
      (fun i _ hne => Finset.sum_eq_zero fun j hj1 => Finset.sum_eq_zero fun k hk1 =>
        if_neg fun h => hne (scoreIdx_inj (Finset.mem_range.mp hj1) hj
          (Finset.mem_range.mp hk1) hk (h.trans hdec)).2.2)]
    rw [Finset.sum_eq_single_of_mem (x % nwa) (Finset.mem_range.mpr hj)
      (fun j hj1 hne => Finset.sum_eq_zero fun k hk1 =>
        if_neg fun h => hne (scoreIdx_inj (Finset.mem_range.mp hj1) hj
          (Finset.mem_range.mp hk1) hk (h.trans hdec)).1)]
    rw [Finset.sum_eq_single_of_mem (x / nwa % nwb) (Finset.mem_range.mpr hk)
      (fun k hk1 hne =>
        if_neg fun h => hne (scoreIdx_inj hj hj (Finset.mem_range.mp hk1) hk
          (h.trans hdec)).2.1)]
    rw [if_pos hdec.symm]
  · rw [if_neg hx]
    refine Finset.sum_eq_zero fun i hi => Finset.sum_eq_zero fun j hj =>
      Finset.sum_eq_zero fun k hk => if_neg fun h => hx ?_
    rw [← h]
    exact scoreIdx_lt (Finset.mem_range.mp hi) (Finset.mem_range.mp hj) (Finset.mem_range.mp hk)

/-- The indices of column `i` lie in `[nwa*nwb*i, nwa*nwb*(i+1))`. -/
theorem scoreIdx_column {nwa nwb i j k : Nat} (hj : j < nwa) (hk : k < nwb) :
    nwa * nwb * i ≤ j + nwa * (k + nwb * i) ∧ j + nwa * (k + nwb * i) < nwa * nwb * (i + 1) := by
  have h := scoreIdx_lt (Nat.lt_succ_self i) hj hk
  have h1 : nwa * (k + nwb * i) = nwa * k + nwa * nwb * i := by ring
  exact ⟨by omega, h⟩

/-! ## The specification's statements -/

/-- C1: `word2vecFwd` stores raw dot products at the documented layout.  For
every column `i < ncols`, context slot `j < nwa` and paired slot `k < nwb`, the
cell `C[j + nwa*(k + nwb*i)]` after the call is the sum over `c < nrows` of
`A[c + nrows*WA[j + i*nwa]] * B[c + nrows*WB[k + i*nwb]]` for the pre-call `A`
and `B`; no sigmoid and no clamp is applied. -/
theorem word2vecFwd_raw_dot (nrows ncols nwa nwb : Nat) (WA WB : Nat → Nat) (m : Mem R)
    (i j k : Nat) (hi : i < ncols) (hj : j < nwa) (hk : k < nwb) :
    (word2vecFwd nrows ncols nwa nwb WA WB m).C (j + nwa * (k + nwb * i)) =
      ∑ c in Finset.range nrows,
        m.A (c + nrows * WA (j + i * nwa)) * m.B (c + nrows * WB (k + i * nwb)) := by
  rw [word2vecFwd_cell nrows ncols nwa nwb WA WB m i j k hi hj hk, dot_eq_sum]

/-- C2: `word2vecFwd` is pure.  `A` and `B` after the call are `A` and `B`
before it, and every cell of the output buffer (offsets below
`nwa*nwb*ncols`) has the same value whatever the buffer held before the call. -/
theorem word2vecFwd_pure (nrows ncols nwa nwb : Nat) (WA WB : Nat → Nat) (m : Mem R)
    (C0 : Nat → R) :
    (word2vecFwd nrows ncols nwa nwb WA WB m).A = m.A ∧
    (word2vecFwd nrows ncols nwa nwb WA WB m).B = m.B ∧
    ∀ x, x < nwa * nwb * ncols →
      (word2vecFwd nrows ncols nwa nwb WA WB { m with C := C0 }).C x =
        (word2vecFwd nrows ncols nwa nwb WA WB m).C x := by
  refine ⟨word2vecFwd_A nrows ncols nwa nwb WA WB m, word2vecFwd_B nrows ncols nwa nwb WA WB m,
    fun x hx => ?_⟩
  obtain ⟨hi, hj, hk, hdec⟩ := scoreIdx_decode nwa nwb ncols x hx
  rw [hdec, word2vecFwd_cell nrows ncols nwa nwb WA WB m _ _ _ hi hj hk,
    word2vecFwd_cell nrows ncols nwa nwb WA WB _ _ _ _ hi hj hk]

/-- C4: in a one-column call of `word2vec`, update pass 1 works from the
pre-call `A` and `B` only.  For every context id `v` and row `c < nrows`,
`A'[c + nrows*v] = A[c + nrows*v] + lrate * Σ_{j : WA[j] = v} Σ_{k < nwb}
C[j,k] * B[c + nrows*WB[k]]` with `C[j,k] = -t(Σ_c A[c + nrows*WA[j]] * B[c +
nrows*WB[k]])`, `t` the clamped logistic transform, also when an id occupies
several slots. -/
theorem word2vec_passA_precall (ex : R → R) (nrows nwa nwb : Nat) (WA WB : Nat → Nat)
    (lrate : R) (m : Mem R) (v c : Nat) (hc : c < nrows) :
    (word2vec ex nrows 1 nwa nwb WA WB lrate m).A (c + nrows * v) =
      m.A (c + nrows * v) + lrate * ∑ j in Finset.range nwa,
        if WA j = v then
          ∑ k in Finset.range nwb,
            (-clampedLogistic ex (∑ r in Finset.range nrows,
                m.A (r + nrows * WA j) * m.B (r + nrows * WB k))) *
              m.B (c + nrows * WB k)
        else 0 := by
  rw [word2vec_one, pairUpdateB_A, pairUpdateA_col _ _ _ _ _ _ _ _ v c hc, pairScores_A,
    pairScores_B]
  simp only [Nat.zero_mul, Nat.add_zero]
  congr 2
  refine Finset.sum_congr rfl fun j hj => ?_
  by_cases h : WA j = v
  · simp only [h, if_true]
    refine Finset.sum_congr rfl fun k hk => ?_
    rw [pairScores_C ex nrows nwa nwb WA WB 0 m j k (Finset.mem_range.mp hj)
      (Finset.mem_range.mp hk), dot_eq_sum]
    simp only [Nat.zero_mul, Nat.add_zero, h]
  · simp only [h, if_false]

/-- C3: in a one-column call of `word2vec`, the update of `B` reads the `A`
that pass 1 has already updated.  For every paired id `w` and row `c < nrows`,
`B'[c + nrows*w] = B[c + nrows*w] + lrate * Σ_{k : WB[k] = w} Σ_{j < nwa}
C[j,k] * A'[c + nrows*WA[j]]`, where `A'` is the post-call `A` and `C[j,k]` is
the scale stored for the pre-call score of slots `j` and `k`. -/
theorem word2vec_passB_sees_updated_A (ex : R → R) (nrows nwa nwb : Nat) (WA WB : Nat → Nat)
    (lrate : R) (m : Mem R) (w c : Nat) (hc : c < nrows) :
    (word2vec ex nrows 1 nwa nwb WA WB lrate m).B (c + nrows * w) =
      m.B (c + nrows * w) + lrate * ∑ k in Finset.range nwb,
        if WB k = w then
          ∑ j in Finset.range nwa,
            (-clampedLogistic ex (∑ r in Finset.range nrows,
                m.A (r + nrows * WA j) * m.B (r + nrows * WB k))) *
              (word2vec ex nrows 1 nwa nwb WA WB lrate m).A (c + nrows * WA j)
        else 0 := by
  rw [word2vec_one, pairUpdateB_A, pairUpdateB_col _ _ _ _ _ _ _ _ w c hc, pairUpdateA_B,
    pairUpdateA_C, pairScores_B]
  simp only [Nat.zero_mul, Nat.add_zero]
  congr 2
  refine Finset.sum_congr rfl fun k hk => ?_
  by_cases h : WB k = w
  · simp only [h, if_true]
    refine Finset.sum_congr rfl fun j hj => ?_
    rw [pairScores_C ex nrows nwa nwb WA WB 0 m j k (Finset.mem_range.mp hj)
      (Finset.mem_range.mp hk), dot_eq_sum]
    simp only [Nat.zero_mul, Nat.add_zero, h]
  · simp only [h, if_false]

/-- C1 at a concrete call: two rows, two columns, one slot each, `A[n] = n` and
`B[n] = n + 1`; the cell of column 1 is `A[0]*B[2] + A[1]*B[3]`. -/
theorem word2vecFwd_raw_dot_witness :
    (1 < 2 ∧ 0 < 1 ∧ 0 < 1) ∧
    (word2vecFwd 2 2 1 1 (fun _ => 0) (fun _ => 1)
        (⟨fun n => (n : ℚ), fun n => (n : ℚ) + 1, fun _ => 0⟩ : Mem ℚ)).C
        (0 + 1 * (0 + 1 * 1)) =
      ∑ c in Finset.range 2,
        (fun n : Nat => (n : ℚ)) (c + 2 * (fun _ : Nat => 0) (0 + 1 * 1)) *
          (fun n : Nat => (n : ℚ) + 1) (c + 2 * (fun _ : Nat => 1) (0 + 1 * 1)) :=
  ⟨⟨by decide, by decide, by decide⟩,
    word2vecFwd_raw_dot 2 2 1 1 (fun _ => 0) (fun _ => 1)
      (⟨fun n => (n : ℚ), fun n => (n : ℚ) + 1, fun _ => 0⟩ : Mem ℚ) 1 0 0
      (by decide) (by decide) (by decide)⟩

/-- C2 at a concrete call: the two cells of a two-column call do not depend
on what the output buffer held. -/
theorem word2vecFwd_pure_witness :
    (0 < 1 * 1 * 2 ∧ 1 < 1 * 1 * 2) ∧
    (word2vecFwd 2 2 1 1 (fun _ => 0) (fun _ => 1)
        (⟨fun n => (n : ℚ), fun n => (n : ℚ) + 1, fun _ => 7⟩ : Mem ℚ)).C 0 =
      (word2vecFwd 2 2 1 1 (fun _ => 0) (fun _ => 1)
        (⟨fun n => (n : ℚ), fun n => (n : ℚ) + 1, fun _ => 0⟩ : Mem ℚ)).C 0 ∧
    (word2vecFwd 2 2 1 1 (fun _ => 0) (fun _ => 1)
        (⟨fun n => (n : ℚ), fun n => (n : ℚ) + 1, fun _ => 7⟩ : Mem ℚ)).C 1 =
      (word2vecFwd 2 2 1 1 (fun _ => 0) (fun _ => 1)
        (⟨fun n => (n : ℚ), fun n => (n : ℚ) + 1, fun _ => 0⟩ : Mem ℚ)).C 1 :=
  ⟨⟨by decide, by decide⟩,
    (word2vecFwd_pure 2 2 1 1 (fun _ => 0) (fun _ => 1)
      (⟨fun n => (n : ℚ), fun n => (n : ℚ) + 1, fun _ => 0⟩ : Mem ℚ) (fun _ => 7)).2.2 0
      (by decide),
    (word2vecFwd_pure 2 2 1 1 (fun _ => 0) (fun _ => 1)
      (⟨fun n => (n : ℚ), fun n => (n : ℚ) + 1, fun _ => 0⟩ : Mem ℚ) (fun _ => 7)).2.2 1
      (by decide)⟩

/-- C4 at the specification's fixture `nrows = nwa = nwb = 1`, `A = [5]`,
`B = [4]`, `lrate = 1/2`: the score `20` is clamped, `C = -1`, and
`a' = a + lrate*C*b = 3`. -/
theorem word2vec_passA_precall_witness :
    0 < 1 ∧
    ((word2vec Real.exp 1 1 1 1 (fun _ => 0) (fun _ => 0) (1 / 2)
        (⟨fun _ => 5, fun _ => 4, fun _ => 0⟩ : Mem ℝ)).A (0 + 1 * 0) =
      (5 : ℝ) + 1 / 2 * ∑ j in Finset.range 1,
        if (fun _ : Nat => 0) j = 0 then
          ∑ k in Finset.range 1,
            (-clampedLogistic Real.exp (∑ r in Finset.range 1,
                (fun _ : Nat => (5 : ℝ)) (r + 1 * (fun _ : Nat => 0) j) *
                  (fun _ : Nat => (4 : ℝ)) (r + 1 * (fun _ : Nat => 0) k))) *
              (fun _ : Nat => (4 : ℝ)) (0 + 1 * (fun _ : Nat => 0) k)
        else 0) ∧
    (word2vec Real.exp 1 1 1 1 (fun _ => 0) (fun _ => 0) (1 / 2)
        (⟨fun _ => 5, fun _ => 4, fun _ => 0⟩ : Mem ℝ)).A 0 = 3 :=
  ⟨by decide,
    word2vec_passA_precall Real.exp 1 1 1 (fun _ => 0) (fun _ => 0) (1 / 2)
      (⟨fun _ => 5, fun _ => 4, fun _ => 0⟩ : Mem ℝ) 0 0 (by decide),
    by norm_num [word2vec, forLoop, pairColumn, pairUpdateA, pairUpdateB, pairScores, pairScore,
      axpyA, axpyB, dot, clampedLogistic]⟩

/-- C3 at the specification's fixture `nrows = nwa = nwb = 1`, `A = [5]`,
`B = [4]`, `lrate = 1/2`: `C = -1`, `a' = 3` and `b' = b + lrate*C*a' = 5/2`,
not `b + lrate*C*a = 3/2`. -/
theorem word2vec_passB_sees_updated_A_witness :
    0 < 1 ∧
    ((word2vec Real.exp 1 1 1 1 (fun _ => 0) (fun _ => 0) (1 / 2)
        (⟨fun _ => 5, fun _ => 4, fun _ => 0⟩ : Mem ℝ)).B (0 + 1 * 0) =
      (4 : ℝ) + 1 / 2 * ∑ k in Finset.range 1,
        if (fun _ : Nat => 0) k = 0 then
          ∑ j in Finset.range 1,
            (-clampedLogistic Real.exp (∑ r in Finset.range 1,
                (fun _ : Nat => (5 : ℝ)) (r + 1 * (fun _ : Nat => 0) j) *
                  (fun _ : Nat => (4 : ℝ)) (r + 1 * (fun _ : Nat => 0) k))) *
              (word2vec Real.exp 1 1 1 1 (fun _ => 0) (fun _ => 0) (1 / 2)
                (⟨fun _ => 5, fun _ => 4, fun _ => 0⟩ : Mem ℝ)).A
                (0 + 1 * (fun _ : Nat => 0) j)
        else 0) ∧
    (word2vec Real.exp 1 1 1 1 (fun _ => 0) (fun _ => 0) (1 / 2)
        (⟨fun _ => 5, fun _ => 4, fun _ => 0⟩ : Mem ℝ)).B 0 = 5 / 2 :=
  ⟨by decide,
    word2vec_passB_sees_updated_A Real.exp 1 1 1 (fun _ => 0) (fun _ => 0) (1 / 2)
      (⟨fun _ => 5, fun _ => 4, fun _ => 0⟩ : Mem ℝ) 0 0 (by decide),
    by norm_num [word2vec, forLoop, pairColumn, pairUpdateA, pairUpdateB, pairScores, pairScore,
      axpyA, axpyB, dot, clampedLogistic]⟩

/-- C5: the clamped logistic transform of `word2vecConv` and `word2vec`, with
the real exponential, maps every real score into `[0, 1]`, is exactly `1` for
every score above `16` and exactly `0` for every score below `-16`. -/
theorem clampedLogistic_range (x : ℝ) :
    0 ≤ clampedLogistic Real.exp x ∧ clampedLogistic Real.exp x ≤ 1 ∧
      (16 < x → clampedLogistic Real.exp x = 1) ∧
      (x < -16 → clampedLogistic Real.exp x = 0) := by
  have hpos : 0 < Real.exp x := Real.exp_pos x
  refine ⟨?_, ?_, ?_, ?_⟩
  · unfold clampedLogistic
    split_ifs
    · exact zero_le_one
    · exact le_refl 0
    · positivity
  · unfold clampedLogistic
    split_ifs
    · exact le_refl 1
    · exact zero_le_one
    · rw [div_le_one (by linarith)]
      linarith
  · intro h
    unfold clampedLogistic
    rw [if_pos h]
  · intro h
    unfold clampedLogistic
    have h1 : ¬ x > 16 := by linarith
    rw [if_neg h1, if_pos h]

/-- C5 at the scores `17` and `-17`. -/
theorem clampedLogistic_range_witness :
    clampedLogistic Real.exp 17 = 1 ∧ clampedLogistic Real.exp (-17) = 0 :=
  ⟨(clampedLogistic_range 17).2.2.1 (by norm_num),
    (clampedLogistic_range (-17)).2.2.2 (by norm_num)⟩

/-- C6 on the code: inside the clamp the transform is `1/(1 + exp(score))`, the
sigmoid of the negated score.  At score `1` it is below `1/2` while
`sigmoid(1) = 1/(1 + exp(-1))` is above `1/2`, and `word2vec` stores
`-1/(1 + exp 1)` for a pair of score `1`. -/
theorem clampedLogistic_at_one :
    clampedLogistic Real.exp 1 = 1 / (1 + Real.exp 1) ∧
    clampedLogistic Real.exp 1 < 1 / 2 ∧
    1 / 2 < 1 / (1 + Real.exp (-1)) ∧
    (pairScore Real.exp 1 1 1 (fun _ => 0) (fun _ => 0) 0 0 0
        (⟨fun _ => 1, fun _ => 1, fun _ => 0⟩ : Mem ℝ)).C 0 = -(1 / (1 + Real.exp 1)) := by
  have h1 : (1 : ℝ) < Real.exp 1 := Real.one_lt_exp_iff.mpr one_pos
  have h2 : Real.exp (-1) < 1 := Real.exp_lt_one_iff.mpr (by norm_num)
  have h3 : 0 < Real.exp (-1) := Real.exp_pos _
  have hval : clampedLogistic Real.exp 1 = 1 / (1 + Real.exp 1) := by
    unfold clampedLogistic
    rw [if_neg (by norm_num), if_neg (by norm_num)]
  refine ⟨hval, ?_, ?_, ?_⟩
  · rw [hval, div_lt_div_iff₀ (by linarith) (by norm_num)]
    linarith
  · rw [div_lt_div_iff₀ (by norm_num) (by linarith)]
    linarith
  · simp [pairScore, dot, forLoop, hval]

/-- C7 on the code: the call `nrows = 1`, `ncols = 3`, `skip = 1`, ids
`[0, 1, 2]`, `A = [-5, -5, -5]`, `B = [4, 4, -20]`, `lrate = 1`.  Position `0`
moves `A[1]` and `B[0]` to `-1`.  At position `1` both scores are `-20` and
both scales are `1`: offset `-1` moves `A[0]` to `-5 + 4 = -1` and `B[1]` to
`4 - 5 = -1`, and offset `+1` then reads that `B[1]`, so `A[2]` becomes
`-5 + (-1) = -6`, not `-5 + 4 = -1`.  Position `2` does not write `A[2]`. -/
theorem word2vecConv_interleaves :
    (convPosition Real.exp 1 3 1 (fun n => n) 1 1
      (convPosition Real.exp 1 3 1 (fun n => n) 1 0
        (⟨fun _ => -5, fun n => if n = 2 then -20 else 4, fun _ => 0, fun _ => 0⟩ :
          ConvMem ℝ))).B 1 = -6 ∧
    (word2vecConv Real.exp 1 3 1 (fun n => n) 1
        (⟨fun _ => -5, fun n => if n = 2 then -20 else 4, fun _ => 0, fun _ => 0⟩ :
          ConvMem ℝ)).A 2 = -6 := by
  have hframe : ∀ s : ConvMem ℝ,
      (convPosition Real.exp 1 3 1 (fun n => n) 1 2 s).A 2 = s.A 2 := by
    intro s
    simp [convPosition, convUpdate, convScore, convAxpy, validOffset, forLoop_succ, forLoop_zero,
      Function.update_apply, Int.toNat]
  constructor
  · norm_num [convPosition, convUpdate, convScore, convAxpy, validOffset, forLoop, dot,
      clampedLogistic, Function.update_apply, Int.toNat]
  · rw [word2vecConv, forLoop_succ, forLoop_succ, forLoop_succ, forLoop_zero, hframe]
    norm_num [convPosition, convUpdate, convScore, convAxpy, validOffset, forLoop, dot,
      clampedLogistic, Function.update_apply, Int.toNat]

/-- C8 on the code: position `0` of the end-to-end scenario `nrows = 2`,
`ncols = 3`, `skip = 1`, ids `[0, 1, 0]`, `A = B = [1, 0, 0, 1]`,
`lrate = 1/10`.  The context id is `1`; the code reads and writes `A[1..2]`,
so the update `lrate/2 * B[0] = 1/20` lands on `A[1]`, and `A[2]`, `A[3]` and
`B` keep their values. -/
theorem convPosition_offsets :
    (convPosition Real.exp 2 3 1 (fun n => if n = 1 then 1 else 0) (1 / 10) 0
        (⟨fun n => if n = 0 ∨ n = 3 then 1 else 0, fun n => if n = 0 ∨ n = 3 then 1 else 0,
          fun _ => 0, fun _ => 0⟩ : ConvMem ℝ)).A 1 = 1 / 20 ∧
    (convPosition Real.exp 2 3 1 (fun n => if n = 1 then 1 else 0) (1 / 10) 0
        (⟨fun n => if n = 0 ∨ n = 3 then 1 else 0, fun n => if n = 0 ∨ n = 3 then 1 else 0,
          fun _ => 0, fun _ => 0⟩ : ConvMem ℝ)).A 2 = 0 ∧
    (convPosition Real.exp 2 3 1 (fun n => if n = 1 then 1 else 0) (1 / 10) 0
        (⟨fun n => if n = 0 ∨ n = 3 then 1 else 0, fun n => if n = 0 ∨ n = 3 then 1 else 0,
          fun _ => 0, fun _ => 0⟩ : ConvMem ℝ)).A 3 = 1 ∧
    (convPosition Real.exp 2 3 1 (fun n => if n = 1 then 1 else 0) (1 / 10) 0
        (⟨fun n => if n = 0 ∨ n = 3 then 1 else 0, fun n => if n = 0 ∨ n = 3 then 1 else 0,
          fun _ => 0, fun _ => 0⟩ : ConvMem ℝ)).B 1 = 0 := by
  refine ⟨?_, ?_, ?_, ?_⟩ <;>
    norm_num [convPosition, convUpdate, convScore, convAxpy, validOffset, forLoop, dot,
      clampedLogistic, Function.update_apply, Int.toNat]

/-- C10 as stated fails on the code: a one-column call with `nrows = nwa = nwb
= 1`, `C = [1]`, `B = [3]` and `lrate = 2` leaves `A' = [6]` and `B' = [12]`,
while the sum of `C[j,k] * A'[:, WA[j]]` with the supplied `C` as weights is
`6`. -/
theorem word2vecBwd_B_not_weighted_by_C :
    (word2vecBwd 1 1 1 1 (fun _ => 0) (fun _ => 0) 2
        (⟨fun _ => 0, fun _ => 3, fun _ => 1⟩ : Mem ℝ)).B 0 = 12 ∧
    (∑ j in Finset.range 1, (fun _ : Nat => (1 : ℝ)) (j + 1 * (0 + 1 * 0)) *
      (word2vecBwd 1 1 1 1 (fun _ => 0) (fun _ => 0) 2
        (⟨fun _ => 0, fun _ => 3, fun _ => 1⟩ : Mem ℝ)).A (0 + 1 * 0)) = 6 := by
  constructor <;>
    norm_num [word2vecBwd, bwdColumn, bwdA, bwdB, bwdSlotA, bwdSlotB, zeroA, zeroB, axpyA, axpyB, forLoop,
      Function.update_apply]

/-- C10, amended: in column `i` of `word2vecBwd`, if each paired id occupies
one slot of the column, the column of `B` named by paired slot `k` ends as the
sum over `j < nwa` of `(lrate * C[j + nwa*(k + nwb*i)]) * A'[:, WA[j,i]]`: the
weights are the supplied `C` values times `lrate`, and `A'` is the `A` the
first half of the same column has already overwritten. -/
theorem bwdColumn_B_weighted_sum (nrows nwa nwb : Nat) (WA WB : Nat → Nat) (lrate : R)
    (i : Nat) (m : Mem R)
    (hinj : ∀ k1 k2, k1 < nwb → k2 < nwb → WB (k1 + i * nwb) = WB (k2 + i * nwb) → k1 = k2)
    (k c : Nat) (hk : k < nwb) (hc : c < nrows) :
    (bwdColumn nrows nwa nwb WA WB lrate i m).B (c + nrows * WB (k + i * nwb)) =
      ∑ j in Finset.range nwa, lrate * m.C (j + nwa * (k + nwb * i)) *
        (bwdColumn nrows nwa nwb WA WB lrate i m).A (c + nrows * WA (j + i * nwa)) := by
  rw [bwdColumn_A]
  unfold bwdColumn
  rw [bwdB_B_last nrows nwa nwb WA WB lrate i _ k c hk hc
    (fun k1 h1 h2 h => absurd (hinj k1 k h2 hk h) (Nat.ne_of_gt h1)), bwdA_C]

/-- C10, amended, at a one-column call with two paired ids: `nrows = nwa = 1`,
`nwb = 2`, paired ids `[0, 1]`, `C = [1, 1]`, `B = [3, 3]`, `lrate = 2` give
`A' = [12]` and `B'[1] = 2 * 1 * 12 = 24`. -/
theorem bwdColumn_B_weighted_sum_witness :
    (∀ k1 k2, k1 < 2 → k2 < 2 →
      (fun k : Nat => k) (k1 + 0 * 2) = (fun k : Nat => k) (k2 + 0 * 2) → k1 = k2) ∧
    1 < 2 ∧ 0 < 1 ∧
    ((word2vecBwd 1 1 1 2 (fun _ => 0) (fun k => k) 2
        (⟨fun _ => 0, fun _ => 3, fun _ => 1⟩ : Mem ℝ)).B (0 + 1 * (fun k : Nat => k) (1 + 0 * 2)) =
      ∑ j in Finset.range 1, 2 * (fun _ : Nat => (1 : ℝ)) (j + 1 * (1 + 2 * 0)) *
        (word2vecBwd 1 1 1 2 (fun _ => 0) (fun k => k) 2
          (⟨fun _ => 0, fun _ => 3, fun _ => 1⟩ : Mem ℝ)).A
          (0 + 1 * (fun _ : Nat => 0) (j + 0 * 1))) ∧
    (word2vecBwd 1 1 1 2 (fun _ => 0) (fun k => k) 2
        (⟨fun _ => 0, fun _ => 3, fun _ => 1⟩ : Mem ℝ)).B 1 = 24 :=
  ⟨fun k1 k2 _ _ h => by simpa using h, by decide, by decide,
    bwdColumn_B_weighted_sum 1 1 2 (fun _ => 0) (fun k => k) 2 0
      (⟨fun _ => 0, fun _ => 3, fun _ => 1⟩ : Mem ℝ)
      (fun k1 k2 _ _ h => by simpa using h) 1 0 (by decide) (by decide),
    by norm_num [word2vecBwd, bwdColumn, bwdA, bwdB, bwdSlotA, bwdSlotB, zeroA, zeroB, axpyA, axpyB, forLoop,
      Function.update_apply]⟩

/-- C9 as stated fails on the code: a one-column call with `nrows = 1`,
`nwa = 2`, `nwb = 1` in which both context slots name id `0`, `C = [1, 2]`,
`B = [3]`, `lrate = 1`.  Slot `1` clears what slot `0` stored, so the post-call
`A[:, WA[0]]` is `6`, the weighted sum of slot `1`, while the weighted sum of
slot `0` is `3`. -/
theorem word2vecBwd_repeated_slot :
    (word2vecBwd 1 1 2 1 (fun _ => 0) (fun _ => 0) 1
        (⟨fun _ => 0, fun _ => 3, fun n => (n : ℝ) + 1⟩ : Mem ℝ)).A
        (0 + 1 * (fun _ : Nat => 0) (0 + 0 * 2)) = 6 ∧
    (∑ k in Finset.range 1,
      (1 * (fun n : Nat => (n : ℝ) + 1) (0 + 2 * (k + 1 * 0))) *
        (fun _ : Nat => (3 : ℝ)) (0 + 1 * (fun _ : Nat => 0) (k + 0 * 1))) = 3 := by
  constructor <;>
    norm_num [word2vecBwd, bwdColumn, bwdA, bwdB, bwdSlotA, bwdSlotB, zeroA, zeroB, axpyA,
      axpyB, forLoop, Function.update_apply]

/-- C9, amended: `word2vecBwd` overwrites rather than accumulates.  If slot `j`
of column `i` is the last touch of its context id in the call (no later slot
of column `i` and no later column names `WA[j,i]`; so in particular when the
id is named by exactly one slot of exactly one column), the post-call
`A[:, WA[j,i]]` is the sum over `k < nwb` of `(lrate * C[j + nwa*(k + nwb*i)])
* B_pre[:, WB[k,i]]`, with `B_pre` the `B` after the first `i` columns.  And
for every touched context id the post-call column of `A` is the same whatever
`A` held before the call. -/
theorem word2vecBwd_overwrites (nrows ncols nwa nwb : Nat) (WA WB : Nat → Nat) (lrate : R)
    (m : Mem R) :
    (∀ i j c, i < ncols → j < nwa → c < nrows →
      (∀ i1 j1, i1 < ncols → j1 < nwa → (i < i1 ∨ (i1 = i ∧ j < j1)) →
        WA (j1 + i1 * nwa) ≠ WA (j + i * nwa)) →
      (word2vecBwd nrows ncols nwa nwb WA WB lrate m).A (c + nrows * WA (j + i * nwa)) =
        ∑ k in Finset.range nwb, (lrate * m.C (j + nwa * (k + nwb * i))) *
          (word2vecBwd nrows i nwa nwb WA WB lrate m).B (c + nrows * WB (k + i * nwb))) ∧
    (∀ (A0 : Nat → R) i j c, i < ncols → j < nwa → c < nrows →
      (word2vecBwd nrows ncols nwa nwb WA WB lrate { m with A := A0 }).A
          (c + nrows * WA (j + i * nwa)) =
        (word2vecBwd nrows ncols nwa nwb WA WB lrate m).A (c + nrows * WA (j + i * nwa))) := by
  constructor
  · intro i j c hi hj hc hlast
    have h1 := forLoop_tail_proj (fun s : Mem R => s.A (c + nrows * WA (j + i * nwa))) ncols
      (i + 1) (fun i m => bwdColumn nrows nwa nwb WA WB lrate i m) m hi
      (fun t s h1 h2 => bwdColumn_A_untouched nrows nwa nwb WA WB lrate t s _ c hc
        (fun j1 hj1 => hlast t j1 h2 hj1 (Or.inl h1)))
    refine h1.trans ?_
    rw [forLoop_succ]
    simp only []
    rw [bwdColumn_A, bwdA_A_last nrows nwa nwb WA WB lrate i _ j c hj hc
      (fun j1 h1 h2 => hlast i j1 hi h2 (Or.inr ⟨rfl, h1⟩))]
    refine Finset.sum_congr rfl fun k _ => ?_
    have hC := word2vecBwd_C nrows i nwa nwb WA WB lrate m
    unfold word2vecBwd at hC ⊢
    rw [hC]
  · intro A0 i j c hi hj hc
    exact (word2vecBwd_congr nrows ncols nwa nwb WA WB lrate { m with A := A0 } m rfl rfl).2 _
      (Or.inr ⟨i, j, hi, hj, (col_mem_iff hc).mpr rfl⟩)

/-- C9, amended, at a two-column call: `nrows = 1`, `nwa = nwb = 1`, context
ids `[0, 1]`, paired ids `[0, 0]`, `C = [1, 1]`, `B = [3]`, `lrate = 2`.
Column `0` sets `A[0] = 2*1*3 = 6` whatever `A` held, and no later slot names
id `0`. -/
theorem word2vecBwd_overwrites_witness :
    (word2vecBwd 1 2 1 1 (fun n => n) (fun _ => 0) 2
        (⟨fun _ => 100, fun _ => 3, fun _ => 1⟩ : Mem ℝ)).A (0 + 1 * (fun n : Nat => n) (0 + 0 * 1)) =
      ∑ k in Finset.range 1, (2 * (fun _ : Nat => (1 : ℝ)) (0 + 1 * (k + 1 * 0))) *
        (word2vecBwd 1 0 1 1 (fun n => n) (fun _ => 0) 2
          (⟨fun _ => 100, fun _ => 3, fun _ => 1⟩ : Mem ℝ)).B
          (0 + 1 * (fun _ : Nat => 0) (k + 0 * 1)) ∧
    (word2vecBwd 1 2 1 1 (fun n => n) (fun _ => 0) 2
        (⟨fun _ => 7, fun _ => 3, fun _ => 1⟩ : Mem ℝ)).A (0 + 1 * (fun n : Nat => n) (0 + 0 * 1)) =
      (word2vecBwd 1 2 1 1 (fun n => n) (fun _ => 0) 2
        (⟨fun _ => 100, fun _ => 3, fun _ => 1⟩ : Mem ℝ)).A
        (0 + 1 * (fun n : Nat => n) (0 + 0 * 1)) ∧
    (word2vecBwd 1 2 1 1 (fun n => n) (fun _ => 0) 2
        (⟨fun _ => 100, fun _ => 3, fun _ => 1⟩ : Mem ℝ)).A 0 = 6 :=
  ⟨(word2vecBwd_overwrites 1 2 1 1 (fun n => n) (fun _ => 0) 2
      (⟨fun _ => 100, fun _ => 3, fun _ => 1⟩ : Mem ℝ)).1 0 0 0 (by decide) (by decide)
      (by decide) (fun i1 j1 _ hj1 h => by
        have h0 : j1 = 0 := Nat.lt_one_iff.mp hj1
        subst h0
        rcases h with h | ⟨_, h⟩
        · simpa using Nat.ne_of_gt h
        · exact absurd h (Nat.lt_irrefl 0)),
    (word2vecBwd_overwrites 1 2 1 1 (fun n => n) (fun _ => 0) 2
      (⟨fun _ => 100, fun _ => 3, fun _ => 1⟩ : Mem ℝ)).2 (fun _ => 7) 0 0 0 (by decide)
      (by decide) (by decide),
    by norm_num [word2vecBwd, bwdColumn, bwdA, bwdB, bwdSlotA, bwdSlotB, zeroA, zeroB, axpyA,
      axpyB, forLoop, Function.update_apply]⟩

/-- C11: degenerate sizes are no-ops for the two additive kernels.
`word2vecConv` with `skip = 0` and `word2vec` with `nwa = 0` or `nwb = 0`
return `A` and `B` unchanged, for every `nrows`, `ncols`, ids, `A`, `B` and
`lrate`.  With `skip = 0` the guard fails at the only offset, so neither
`W[i + j]` nor `C[j + skip]` is accessed, and the cells `B[c + W[i]]` the
flush loop addresses lie inside a buffer of `nrows * vocab` cells; the id
reads `WA[j + i*nwa]` and `WB[k + i*nwb]` of `word2vec` lie inside arrays of
`nwa*ncols` and `nwb*ncols` ids. -/
theorem degenerate_sizes_noop (ex : R → R) (nrows ncols : Nat) :
    (∀ (W : Nat → Nat) (lrate : R) (m : ConvMem R),
      (word2vecConv ex nrows ncols 0 W lrate m).A = m.A ∧
        (word2vecConv ex nrows ncols 0 W lrate m).B = m.B) ∧
    (∀ (nwa nwb : Nat) (WA WB : Nat → Nat) (lrate : R) (m : Mem R), nwa = 0 ∨ nwb = 0 →
      (word2vec ex nrows ncols nwa nwb WA WB lrate m).A = m.A ∧
        (word2vec ex nrows ncols nwa nwb WA WB lrate m).B = m.B) ∧
    (∀ i t : Nat, t < 2 * 0 + 1 → validOffset ncols i ((t : Int) - ((0 : Nat) : Int)) = false) ∧
    (∀ (W : Nat → Nat) (vocab i c : Nat), W i < vocab → c < nrows →
      c + W i < nrows * vocab) ∧
    (∀ nwa nwb i j k : Nat, i < ncols → (j < nwa → j + i * nwa < nwa * ncols) ∧
      (k < nwb → k + i * nwb < nwb * ncols)) := by
  have hguard : ∀ i t : Nat, t < 2 * 0 + 1 →
      validOffset ncols i ((t : Int) - ((0 : Nat) : Int)) = false := by
    intro i t ht
    have h0 : t = 0 := by omega
    subst h0
    simpa using validOffset_zero ncols i
  have hidx : ∀ n i j : Nat, i < ncols → j < n → j + i * n < n * ncols := by
    intro n i j hi hj
    have h1 : n * (i + 1) ≤ n * ncols := Nat.mul_le_mul_left n hi
    rw [Nat.mul_add, Nat.mul_one, Nat.mul_comm n i] at h1
    omega
  refine ⟨fun W lrate m => ?_, fun nwa nwb WA WB lrate m h => ?_, hguard, ?_, ?_⟩
  · unfold word2vecConv
    exact forLoop_inv (fun s : ConvMem R => s.A = m.A ∧ s.B = m.B) _ _ m ⟨rfl, rfl⟩
      fun i s _ hs =>
        ⟨(convPosition_no_offset ex nrows ncols 0 W lrate i s (hguard i)).1.trans hs.1,
          (convPosition_no_offset ex nrows ncols 0 W lrate i s (hguard i)).2.trans hs.2⟩
  · unfold word2vec
    exact forLoop_inv (fun s : Mem R => s.A = m.A ∧ s.B = m.B) _ _ m ⟨rfl, rfl⟩
      fun i s _ hs =>
        ⟨(pairColumn_degenerate ex nrows nwa nwb WA WB lrate i s h).1.trans hs.1,
          (pairColumn_degenerate ex nrows nwa nwb WA WB lrate i s h).2.trans hs.2⟩
  · intro W vocab i c hW hc
    have h1 : nrows * (W i + 1) ≤ nrows * vocab := Nat.mul_le_mul_left nrows hW
    have h2 : 1 * W i ≤ nrows * W i := Nat.mul_le_mul_right (W i) (by omega)
    rw [Nat.mul_add, Nat.mul_one] at h1
    omega
  · intro nwa nwb i j k hi
    exact ⟨fun hj => hidx nwa i j hi hj, fun hk => hidx nwb i k hi hk⟩

/-- C11 at concrete calls: `word2vecConv` with `skip = 0` on ids `[0, 1, 0]`
and `word2vec` with `nwb = 0` on three columns return the buffers they got. -/
theorem degenerate_sizes_noop_witness :
    (word2vecConv Real.exp 2 3 0 (fun n => if n = 1 then 1 else 0) (1 / 10)
        (⟨fun n => (n : ℝ), fun n => (n : ℝ) + 1, fun _ => 0, fun _ => 0⟩ : ConvMem ℝ)).B =
      (fun n : Nat => (n : ℝ) + 1) ∧
    (word2vec Real.exp 2 3 1 0 (fun n => n) (fun n => n) (1 / 10)
        (⟨fun n => (n : ℝ), fun n => (n : ℝ) + 1, fun _ => 0⟩ : Mem ℝ)).A =
      (fun n : Nat => (n : ℝ)) :=
  ⟨((degenerate_sizes_noop Real.exp 2 3).1 (fun n => if n = 1 then 1 else 0) (1 / 10)
      (⟨fun n => (n : ℝ), fun n => (n : ℝ) + 1, fun _ => 0, fun _ => 0⟩ : ConvMem ℝ)).2,
    ((degenerate_sizes_noop Real.exp 2 3).2.1 1 0 (fun n => n) (fun n => n) (1 / 10)
      (⟨fun n => (n : ℝ), fun n => (n : ℝ) + 1, fun _ => 0⟩ : Mem ℝ) (Or.inr rfl)).1⟩

/-- C18: the per-position scratch buffer of `word2vecConv` is used safely.
For every position `i` and every `skip`: each scratch index `j + skip` of an
offset `j = t - skip`, `t ≤ 2*skip`, lies in `[0, 2*skip]`; each index
`i + j` used to read `W` passes the guard and lies in `[0, ncols)`; each cell
`C[j + skip]` the update pass reads holds, after the score pass of the same
position, the scale `1 - t(score)` of that offset; and the `A` and `B` the
position produces are the same whatever `C` and `Btmp` held on entry. -/
theorem convPosition_scratch_safe (ex : R → R) (nrows ncols skip : Nat) (W : Nat → Nat)
    (lrate : R) (i : Nat) (m : ConvMem R) :
    (∀ t : Nat, t < 2 * skip + 1 →
      0 ≤ ((t : Int) - (skip : Int)) + (skip : Int) ∧
        ((t : Int) - (skip : Int)) + (skip : Int) ≤ 2 * (skip : Int) ∧
        (((t : Int) - (skip : Int)) + (skip : Int)).toNat = t) ∧
    (∀ j : Int, validOffset ncols i j = true →
      0 ≤ (i : Int) + j ∧ (i : Int) + j < (ncols : Int) ∧ ((i : Int) + j).toNat < ncols) ∧
    (∀ t : Nat, t < 2 * skip + 1 → validOffset ncols i ((t : Int) - (skip : Int)) = true →
      (forLoop (2 * skip + 1) (fun t m => convScore ex nrows ncols skip W i t m) m).C t =
        1 - clampedLogistic ex
          (dot nrows m.A m.B (W ((i : Int) + ((t : Int) - (skip : Int))).toNat) (W i))) ∧
    (∀ C0 Btmp0 : Nat → R,
      (convPosition ex nrows ncols skip W lrate i { m with C := C0, Btmp := Btmp0 }).A =
          (convPosition ex nrows ncols skip W lrate i m).A ∧
        (convPosition ex nrows ncols skip W lrate i { m with C := C0, Btmp := Btmp0 }).B =
          (convPosition ex nrows ncols skip W lrate i m).B) := by
  refine ⟨fun t ht => ⟨by omega, by omega, offset_index t skip⟩, fun j hj => ?_,
    fun t ht hv => convScores_C ex nrows ncols skip W i (2 * skip + 1) t m ht hv,
    fun C0 Btmp0 => ?_⟩
  · obtain ⟨_, h1, h2⟩ := validOffset_bounds hj
    exact ⟨h1, h2, by omega⟩
  · unfold convPosition
    refine convUpdates_congr nrows ncols skip W lrate i (2 * skip + 1) _ _ ?_ ?_ ?_
    · rw [convScores_A, convScores_A]
    · rw [convScores_B, convScores_B]
    · intro t ht hv
      rw [convScores_C ex nrows ncols skip W i (2 * skip + 1) t _ ht hv,
        convScores_C ex nrows ncols skip W i (2 * skip + 1) t m ht hv]

/-- C18 at position `1` of a call with `ncols = 3` and `skip = 1`: the scratch
indices are `0, 1, 2`, the offsets `-1` and `+1` read `W[0]` and `W[2]`, and
the result does not depend on what the scratch buffers held. -/
theorem convPosition_scratch_safe_witness :
    (((2 : Nat) : Int) - ((1 : Nat) : Int) + ((1 : Nat) : Int)).toNat = 2 ∧
    (((1 : Nat) : Int) + 1).toNat < 3 ∧
    (convPosition Real.exp 1 3 1 (fun n => n) 1 1
        { (⟨fun _ => -5, fun _ => 4, fun _ => 0, fun _ => 0⟩ : ConvMem ℝ) with
          C := fun _ => 9, Btmp := fun _ => 7 }).A =
      (convPosition Real.exp 1 3 1 (fun n => n) 1 1
        (⟨fun _ => -5, fun _ => 4, fun _ => 0, fun _ => 0⟩ : ConvMem ℝ)).A :=
  ⟨((convPosition_scratch_safe Real.exp 1 3 1 (fun n => n) 1 1
      (⟨fun _ => -5, fun _ => 4, fun _ => 0, fun _ => 0⟩ : ConvMem ℝ)).1 2 (by decide)).2.2,
    ((convPosition_scratch_safe Real.exp 1 3 1 (fun n => n) 1 1
      (⟨fun _ => -5, fun _ => 4, fun _ => 0, fun _ => 0⟩ : ConvMem ℝ)).2.1 1 rfl).2.2,
    ((convPosition_scratch_safe Real.exp 1 3 1 (fun n => n) 1 1
      (⟨fun _ => -5, fun _ => 4, fun _ => 0, fun _ => 0⟩ : ConvMem ℝ)).2.2.2
      (fun _ => 9) (fun _ => 7)).1⟩

/-- C12 as stated fails on the code: one-column calls with `nrows = 1`,
`A = [5]`, `B = [3]`.  With `nwa = 1`, `nwb = 0` the column of `A` named by the
context slot is cleared, `A' = [0]`; with `nwa = 0`, `nwb = 1` the column of
`B` named by the paired slot is cleared, `B' = [0]`. -/
theorem word2vecBwd_degenerate_clears :
    (word2vecBwd 1 1 1 0 (fun _ => 0) (fun _ => 0) 1
        (⟨fun _ => 5, fun _ => 3, fun _ => 1⟩ : Mem ℝ)).A 0 = 0 ∧
    (⟨fun _ => 5, fun _ => 3, fun _ => 1⟩ : Mem ℝ).A 0 = 5 ∧
    (word2vecBwd 1 1 0 1 (fun _ => 0) (fun _ => 0) 1
        (⟨fun _ => 5, fun _ => 3, fun _ => 1⟩ : Mem ℝ)).B 0 = 0 ∧
    (⟨fun _ => 5, fun _ => 3, fun _ => 1⟩ : Mem ℝ).B 0 = 3 := by
  refine ⟨?_, rfl, ?_, rfl⟩ <;>
    norm_num [word2vecBwd, bwdColumn, bwdA, bwdB, bwdSlotA, bwdSlotB, zeroA, zeroB, axpyA,
      axpyB, forLoop, Function.update_apply]

/-- C12, amended: `word2vecBwd` with `nwa = 0` or `nwb = 0`.  With `nwb = 0`
the call leaves `B` unchanged, clears every column of `A` named by
`contextIds` and keeps the other columns of `A`; with `nwa = 0` it leaves `A`
unchanged, clears every column of `B` named by `pairedIds` and keeps the other
columns of `B` (so with `nwa = nwb = 0` nothing changes). -/
theorem word2vecBwd_degenerate (nrows ncols nwa nwb : Nat) (WA WB : Nat → Nat) (lrate : R)
    (m : Mem R) :
    (nwb = 0 →
      (word2vecBwd nrows ncols nwa nwb WA WB lrate m).B = m.B ∧
      (∀ i j c, i < ncols → j < nwa → c < nrows →
        (word2vecBwd nrows ncols nwa nwb WA WB lrate m).A (c + nrows * WA (j + i * nwa)) = 0) ∧
      (∀ v c, c < nrows → (∀ i j, i < ncols → j < nwa → WA (j + i * nwa) ≠ v) →
        (word2vecBwd nrows ncols nwa nwb WA WB lrate m).A (c + nrows * v) =
          m.A (c + nrows * v))) ∧
    (nwa = 0 →
      (word2vecBwd nrows ncols nwa nwb WA WB lrate m).A = m.A ∧
      (∀ i k c, i < ncols → k < nwb → c < nrows →
        (word2vecBwd nrows ncols nwa nwb WA WB lrate m).B (c + nrows * WB (k + i * nwb)) = 0) ∧
      (∀ w c, c < nrows → (∀ i k, i < ncols → k < nwb → WB (k + i * nwb) ≠ w) →
        (word2vecBwd nrows ncols nwa nwb WA WB lrate m).B (c + nrows * w) =
          m.B (c + nrows * w))) := by
  constructor
  · intro h
    refine ⟨?_, fun i j c hi hj hc => ?_, fun v c hc hno => ?_⟩
    · subst h
      exact forLoop_proj Mem.B _ _ _ fun i s _ => bwdA_B nrows nwa 0 WA WB lrate i s
    · exact (word2vecBwd_A_clears nrows ncols nwa nwb WA WB lrate m (Or.inr h) _ c hc).1
        ⟨i, j, hi, hj, rfl⟩
    · exact (word2vecBwd_A_clears nrows ncols nwa nwb WA WB lrate m (Or.inr h) v c hc).2 hno
  · intro h
    refine ⟨?_, fun i k c hi hk hc => ?_, fun w c hc hno => ?_⟩
    · subst h
      exact forLoop_proj Mem.A _ _ _ fun i s _ => bwdB_A nrows 0 nwb WA WB lrate i _
    · exact (word2vecBwd_B_clears nrows ncols nwa nwb WA WB lrate m (Or.inr h) _ c hc).1
        ⟨i, k, hi, hk, rfl⟩
    · exact (word2vecBwd_B_clears nrows ncols nwa nwb WA WB lrate m (Or.inr h) w c hc).2 hno

/-- C12, amended, at a call with `nwb = 0`: `nrows = 2`, two columns with
context ids `[0, 2]`; `B` is returned as it was, `A[:, 2]` is cleared and
`A[:, 1]` keeps its values. -/
theorem word2vecBwd_degenerate_witness :
    (word2vecBwd 2 2 1 0 (fun n => 2 * n) (fun _ => 0) 1
        (⟨fun n => (n : ℝ) + 1, fun n => (n : ℝ), fun _ => 1⟩ : Mem ℝ)).B =
      (fun n : Nat => (n : ℝ)) ∧
    (word2vecBwd 2 2 1 0 (fun n => 2 * n) (fun _ => 0) 1
        (⟨fun n => (n : ℝ) + 1, fun n => (n : ℝ), fun _ => 1⟩ : Mem ℝ)).A
        (1 + 2 * (fun n : Nat => 2 * n) (0 + 1 * 1)) = 0 ∧
    (word2vecBwd 2 2 1 0 (fun n => 2 * n) (fun _ => 0) 1
        (⟨fun n => (n : ℝ) + 1, fun n => (n : ℝ), fun _ => 1⟩ : Mem ℝ)).A (1 + 2 * 1) =
      (fun n : Nat => (n : ℝ) + 1) (1 + 2 * 1) :=
  ⟨((word2vecBwd_degenerate 2 2 1 0 (fun n => 2 * n) (fun _ => 0) 1
      (⟨fun n => (n : ℝ) + 1, fun n => (n : ℝ), fun _ => 1⟩ : Mem ℝ)).1 rfl).1,
    ((word2vecBwd_degenerate 2 2 1 0 (fun n => 2 * n) (fun _ => 0) 1
      (⟨fun n => (n : ℝ) + 1, fun n => (n : ℝ), fun _ => 1⟩ : Mem ℝ)).1 rfl).2.1 1 0 1
      (by decide) (by decide) (by decide),
    ((word2vecBwd_degenerate 2 2 1 0 (fun n => 2 * n) (fun _ => 0) 1
      (⟨fun n => (n : ℝ) + 1, fun n => (n : ℝ), fun _ => 1⟩ : Mem ℝ)).1 rfl).2.2 1 1
      (by decide) (fun i j _ hj => by
        have h0 : j = 0 := Nat.lt_one_iff.mp hj
        subst h0
        simp only [Nat.zero_add, Nat.mul_one]
        omega)⟩

/-- C14: in `word2vecBwd` run over the columns in increasing order, when a
context id `v` is named by column `i1` in slot `j1` and by a later column `i2`
in slot `j2` (one slot each, and by no column after `i2`), clearing in column
`i2` discards what column `i1` stored: the post-call `A[:, v]` is the sum over
`k < nwb` of `lrate * C[j2 + nwa*(k + nwb*i2)] * B[:, WB[k,i2]]`, with `B` as
it stands when column `i2` starts, and no term of column `i1`. -/
theorem word2vecBwd_later_column_wins (nrows ncols nwa nwb : Nat) (WA WB : Nat → Nat)
    (lrate : R) (m : Mem R) (i1 i2 j1 j2 v c : Nat)
    (h12 : i1 < i2) (hi2 : i2 < ncols) (_hj1 : j1 < nwa) (hj2 : j2 < nwa) (hc : c < nrows)
    (hv1 : WA (j1 + i1 * nwa) = v) (hv2 : WA (j2 + i2 * nwa) = v)
    (hslot1 : ∀ j, j < nwa → j ≠ j1 → WA (j + i1 * nwa) ≠ v)
    (hslot2 : ∀ j, j < nwa → j ≠ j2 → WA (j + i2 * nwa) ≠ v)
    (hlater : ∀ i j, i2 < i → i < ncols → j < nwa → WA (j + i * nwa) ≠ v) :
    (word2vecBwd nrows ncols nwa nwb WA WB lrate m).A (c + nrows * v) =
      ∑ k in Finset.range nwb, lrate * m.C (j2 + nwa * (k + nwb * i2)) *
        (word2vecBwd nrows i2 nwa nwb WA WB lrate m).B (c + nrows * WB (k + i2 * nwb)) := by
  subst hv2
  exact word2vecBwd_A_last nrows ncols nwa nwb WA WB lrate m i2 j2 c hi2 hj2 hc
    fun i j hi hj h => by
      rcases h with h | ⟨rfl, h⟩
      · exact hlater i j h hi hj
      · exact hslot2 j hj (Nat.ne_of_gt h)

/-- C14 at a two-column call: `nrows = nwa = nwb = 1`, both columns name
context id `0`, paired ids `[0, 1]`, `C = [1, 1]`, `B = [3, 5]`, `lrate = 1`.
Column `0` stores `A[0] = 3`, column `1` replaces it by `1 * B[1] = 5`; the
call ends with `A[0] = 5`, not `3 + 5`. -/
theorem word2vecBwd_later_column_wins_witness :
    ((0 < 1 ∧ 1 < 2 ∧ 0 < 1 ∧ 0 < 1 ∧ 0 < 1) ∧
      (fun _ : Nat => 0) (0 + 0 * 1) = 0 ∧ (fun _ : Nat => 0) (0 + 1 * 1) = 0) ∧
    ((word2vecBwd 1 2 1 1 (fun _ => 0) (fun n => n) 1
        (⟨fun _ => 0, fun n => if n = 0 then 3 else 5, fun _ => 1⟩ : Mem ℝ)).A (0 + 1 * 0) =
      ∑ k in Finset.range 1, 1 * (fun _ : Nat => (1 : ℝ)) (0 + 1 * (k + 1 * 1)) *
        (word2vecBwd 1 1 1 1 (fun _ => 0) (fun n => n) 1
          (⟨fun _ => 0, fun n => if n = 0 then 3 else 5, fun _ => 1⟩ : Mem ℝ)).B
          (0 + 1 * (fun n : Nat => n) (k + 1 * 1))) ∧
    (word2vecBwd 1 2 1 1 (fun _ => 0) (fun n => n) 1
        (⟨fun _ => 0, fun n => if n = 0 then 3 else 5, fun _ => 1⟩ : Mem ℝ)).A 0 = 5 :=
  ⟨⟨⟨by decide, by decide, by decide, by decide, by decide⟩, rfl, rfl⟩,
    word2vecBwd_later_column_wins 1 2 1 1 (fun _ => 0) (fun n => n) 1
      (⟨fun _ => 0, fun n => if n = 0 then 3 else 5, fun _ => 1⟩ : Mem ℝ) 0 1 0 0 0 0
      (by decide) (by decide) (by decide) (by decide) (by decide) rfl rfl
      (fun j hj hne => absurd (Nat.lt_one_iff.mp hj) hne)
      (fun j hj hne => absurd (Nat.lt_one_iff.mp hj) hne)
      (fun i _ h1 h2 _ => absurd h2 (by omega)),
    by norm_num [word2vecBwd, bwdColumn, bwdA, bwdB, bwdSlotA, bwdSlotB, zeroA, zeroB, axpyA,
      axpyB, forLoop, Function.update_apply]⟩

/-- C15: the score-buffer index map of `word2vecFwd` and `word2vecBwd` is a
bijection onto the buffer, and `word2vecFwd` writes every cell of it exactly
once.  On `i < ncols`, `k < nwb`, `j < nwa` the index `j + nwa*(k + nwb*i)` is
below `nwa*nwb*ncols`, determines `(i, k, j)`, and takes every value below
`nwa*nwb*ncols`.  The kernel's `C` is the pre-call `C` with its logged stores
executed in order; the log holds exactly one store to each cell below
`nwa*nwb*ncols` and none to any other cell; after the call every cell below
`nwa*nwb*ncols` holds the dot product of the triple it decodes to and every
cell from `nwa*nwb*ncols` on holds what it held before; column `i` writes only
cells of `[nwa*nwb*i, nwa*nwb*(i+1))`, so distinct columns write disjoint
cells; and iteration `(i, j, k)` writes cell `j + nwa*(k + nwb*i)` and no
other. -/
theorem word2vecFwd_writes_each_cell_once (nrows ncols nwa nwb : Nat) (WA WB : Nat → Nat)
    (m : Mem R) :
    (∀ i k j, i < ncols → k < nwb → j < nwa → j + nwa * (k + nwb * i) < nwa * nwb * ncols) ∧
    (∀ i k j i0 k0 j0, k < nwb → j < nwa → k0 < nwb → j0 < nwa →
      j + nwa * (k + nwb * i) = j0 + nwa * (k0 + nwb * i0) → i = i0 ∧ k = k0 ∧ j = j0) ∧
    (∀ x, x < nwa * nwb * ncols →
      ∃ i k j, i < ncols ∧ k < nwb ∧ j < nwa ∧ x = j + nwa * (k + nwb * i)) ∧
    (word2vecFwd nrows ncols nwa nwb WA WB m).C =
      replayStores (fwdStores nrows ncols nwa nwb WA WB m.A m.B) m.C ∧
    (∀ x, ((fwdStores nrows ncols nwa nwb WA WB m.A m.B).map Prod.fst).count x =
      if x < nwa * nwb * ncols then 1 else 0) ∧
    (∀ x, x < nwa * nwb * ncols →
      (word2vecFwd nrows ncols nwa nwb WA WB m).C x =
        dot nrows m.A m.B (nrows * WA (x % nwa + x / (nwa * nwb) * nwa))
          (nrows * WB (x / nwa % nwb + x / (nwa * nwb) * nwb))) ∧
    (∀ x, nwa * nwb * ncols ≤ x → (word2vecFwd nrows ncols nwa nwb WA WB m).C x = m.C x) ∧
    (∀ (i : Nat) (s : Mem R) (x : Nat), x < nwa * nwb * i ∨ nwa * nwb * (i + 1) ≤ x →
      (fwdColumn nrows nwa nwb WA WB i s).C x = s.C x) ∧
    (∀ (i j k : Nat) (s : Mem R) (x : Nat),
      (fwdCell nrows nwa nwb WA WB i j k s).C x =
        if x = j + nwa * (k + nwb * i) then
          dot nrows s.A s.B (nrows * WA (j + i * nwa)) (nrows * WB (k + i * nwb))
        else s.C x) := by
  refine ⟨fun i k j hi hk hj => scoreIdx_lt hi hj hk, ?_, fun x hx => ?_,
    word2vecFwd_eq_replay nrows ncols nwa nwb WA WB m, fun x => ?_, fun x hx => ?_,
    fun x hx => ?_, fun i s x hx => ?_, fun i j k s x => ?_⟩
  · intro i k j i0 k0 j0 hk hj hk0 hj0 h
    obtain ⟨h1, h2, h3⟩ := scoreIdx_inj hj hj0 hk hk0 h
    exact ⟨h3, h2, h1⟩
  · obtain ⟨hi, hj, hk, hdec⟩ := scoreIdx_decode nwa nwb ncols x hx
    exact ⟨_, _, _, hi, hk, hj, hdec⟩
  · rw [fwdStores_count_sum, scoreIdx_count]
  · obtain ⟨hi, hj, hk, hdec⟩ := scoreIdx_decode nwa nwb ncols x hx
    have h := word2vecFwd_cell nrows ncols nwa nwb WA WB m _ _ _ hi hj hk
    rw [← hdec] at h
    exact h
  · exact forLoop_proj (fun s : Mem R => s.C x) _ _ _ fun i s hi =>
      fwdColumn_C_of_ne nrows nwa nwb WA WB i x s fun j k hj hk h => by
        have h1 := scoreIdx_lt hi hj hk
        omega
  · exact fwdColumn_C_of_ne nrows nwa nwb WA WB i x s fun j k hj hk h => by
      have h1 := scoreIdx_column (i := i) hj hk
      omega
  · simp only [fwdCell, Function.update_apply]

/-- C15 at the call `nrows = 1`, `ncols = 2`, `nwa = 2`, `nwb = 1`, with
`WA[n] = WB[n] = n`, `A[n] = n + 1`, `B[n] = n + 2`: the buffer has four cells,
the stores go to the cells `0, 1, 2, 3` in this order, cell `3` is stored to
once and cell `4` never, and cell `3` ends as `A[3] * B[1] = 12`. -/
theorem word2vecFwd_writes_each_cell_once_witness :
    ((fwdStores 1 2 2 1 (fun n => n) (fun n => n) (fun n => (n : ℚ) + 1)
        (fun n => (n : ℚ) + 2)).map Prod.fst).count 3 = (if 3 < 2 * 1 * 2 then 1 else 0) ∧
    ((fwdStores 1 2 2 1 (fun n => n) (fun n => n) (fun n => (n : ℚ) + 1)
        (fun n => (n : ℚ) + 2)).map Prod.fst).count 4 = (if 4 < 2 * 1 * 2 then 1 else 0) ∧
    (fwdStores 1 2 2 1 (fun n => n) (fun n => n) (fun n => (n : ℚ) + 1)
        (fun n => (n : ℚ) + 2)).map Prod.fst = [0, 1, 2, 3] ∧
    (word2vecFwd 1 2 2 1 (fun n => n) (fun n => n)
        (⟨fun n => (n : ℚ) + 1, fun n => (n : ℚ) + 2, fun _ => 0⟩ : Mem ℚ)).C 3 = 12 ∧
    (word2vecFwd 1 2 2 1 (fun n => n) (fun n => n)
        (⟨fun n => (n : ℚ) + 1, fun n => (n : ℚ) + 2, fun _ => 0⟩ : Mem ℚ)).C 4 = 0 :=
  ⟨(word2vecFwd_writes_each_cell_once 1 2 2 1 (fun n => n) (fun n => n)
      (⟨fun n => (n : ℚ) + 1, fun n => (n : ℚ) + 2, fun _ => 0⟩ : Mem ℚ)).2.2.2.2.1 3,
    (word2vecFwd_writes_each_cell_once 1 2 2 1 (fun n => n) (fun n => n)
      (⟨fun n => (n : ℚ) + 1, fun n => (n : ℚ) + 2, fun _ => 0⟩ : Mem ℚ)).2.2.2.2.1 4,
    by simp [fwdStores, forLoop],
    by norm_num [word2vecFwd, fwdColumn, fwdCell, dot, forLoop, Function.update_apply],
    (word2vecFwd_writes_each_cell_once 1 2 2 1 (fun n => n) (fun n => n)
      (⟨fun n => (n : ℚ) + 1, fun n => (n : ℚ) + 2, fun _ => 0⟩ : Mem ℚ)).2.2.2.2.2.2.1 4
      (by decide)⟩

/-- C16: `word2vec` and `word2vecBwd` preserve untouched columns.  For every
row `c < nrows`, an entry `A[c + nrows*v]` with `v` named by no context slot of
the call and an entry `B[c + nrows*w]` with `w` named by no paired slot of the
call have the same value after the call as before, and `word2vecBwd` leaves its
score buffer `C` unchanged.  (The id arrays are read-only inputs of both
kernels.) -/
theorem untouched_columns_preserved (ex : R → R) (nrows ncols nwa nwb : Nat)
    (WA WB : Nat → Nat) (lrate : R) (m : Mem R) :
    (∀ v c, c < nrows → (∀ i j, i < ncols → j < nwa → WA (j + i * nwa) ≠ v) →
      (word2vec ex nrows ncols nwa nwb WA WB lrate m).A (c + nrows * v) =
        m.A (c + nrows * v)) ∧
    (∀ w c, c < nrows → (∀ i k, i < ncols → k < nwb → WB (k + i * nwb) ≠ w) →
      (word2vec ex nrows ncols nwa nwb WA WB lrate m).B (c + nrows * w) =
        m.B (c + nrows * w)) ∧
    (∀ v c, c < nrows → (∀ i j, i < ncols → j < nwa → WA (j + i * nwa) ≠ v) →
      (word2vecBwd nrows ncols nwa nwb WA WB lrate m).A (c + nrows * v) =
        m.A (c + nrows * v)) ∧
    (∀ w c, c < nrows → (∀ i k, i < ncols → k < nwb → WB (k + i * nwb) ≠ w) →
      (word2vecBwd nrows ncols nwa nwb WA WB lrate m).B (c + nrows * w) =
        m.B (c + nrows * w)) ∧
    (word2vecBwd nrows ncols nwa nwb WA WB lrate m).C = m.C := by
  refine ⟨fun v c hc h => ?_, fun w c hc h => ?_, fun v c hc h => ?_, fun w c hc h => ?_,
    word2vecBwd_C nrows ncols nwa nwb WA WB lrate m⟩
  · exact forLoop_proj (fun s : Mem R => s.A (c + nrows * v)) _ _ _ fun i s hi =>
      pairColumn_A_untouched ex nrows nwa nwb WA WB lrate i s v c hc fun j hj => h i j hi hj
  · exact forLoop_proj (fun s : Mem R => s.B (c + nrows * w)) _ _ _ fun i s hi =>
      pairColumn_B_untouched ex nrows nwa nwb WA WB lrate i s w c hc fun k hk => h i k hi hk
  · exact forLoop_proj (fun s : Mem R => s.A (c + nrows * v)) _ _ _ fun i s hi =>
      bwdColumn_A_untouched nrows nwa nwb WA WB lrate i s v c hc fun j hj => h i j hi hj
  · exact forLoop_proj (fun s : Mem R => s.B (c + nrows * w)) _ _ _ fun i s hi =>
      bwdColumn_B_untouched nrows nwa nwb WA WB lrate i s w c hc fun k hk => h i k hi hk

/-- C16 at one-column calls with `nrows = 2`, context id `0` and paired id `1`:
column `1` of `A` (cell `A[3]`) and column `0` of `B` (cell `B[0]`) are not
named and keep their values in `word2vec` and in `word2vecBwd`. -/
theorem untouched_columns_preserved_witness :
    (word2vec Real.exp 2 1 1 1 (fun _ => 0) (fun _ => 1) (1 / 10)
        (⟨fun n => (n : ℝ), fun n => (n : ℝ) + 1, fun _ => 1⟩ : Mem ℝ)).A (1 + 2 * 1) =
      (fun n : Nat => (n : ℝ)) (1 + 2 * 1) ∧
    (word2vecBwd 2 1 1 1 (fun _ => 0) (fun _ => 1) (1 / 10)
        (⟨fun n => (n : ℝ), fun n => (n : ℝ) + 1, fun _ => 1⟩ : Mem ℝ)).B (0 + 2 * 0) =
      (fun n : Nat => (n : ℝ) + 1) (0 + 2 * 0) :=
  ⟨(untouched_columns_preserved Real.exp 2 1 1 1 (fun _ => 0) (fun _ => 1) (1 / 10)
      (⟨fun n => (n : ℝ), fun n => (n : ℝ) + 1, fun _ => 1⟩ : Mem ℝ)).1 1 1 (by decide)
      (fun _ _ _ _ => by decide),
    (untouched_columns_preserved Real.exp 2 1 1 1 (fun _ => 0) (fun _ => 1) (1 / 10)
      (⟨fun n => (n : ℝ), fun n => (n : ℝ) + 1, fun _ => 1⟩ : Mem ℝ)).2.2.2.1 0 0 (by decide)
      (fun _ _ _ _ => by decide)⟩

/-- C17: `word2vecBwd` depends on `lrate` and `C` only through `lrate * C`.
A call with score buffer `C` and rate `lrate` ends with the same `A` and `B`
as a call with the buffer whose every entry is multiplied by `lrate` and rate
`1`; and with `lrate = 0` every column of `A` named by `contextIds` and every
column of `B` named by `pairedIds` is zero after the call. -/
theorem word2vecBwd_lrate_times_C (nrows ncols nwa nwb : Nat) (WA WB : Nat → Nat) (lrate : R)
    (m : Mem R) :
    ((word2vecBwd nrows ncols nwa nwb WA WB lrate m).A =
        (word2vecBwd nrows ncols nwa nwb WA WB 1 { m with C := fun x => lrate * m.C x }).A ∧
      (word2vecBwd nrows ncols nwa nwb WA WB lrate m).B =
        (word2vecBwd nrows ncols nwa nwb WA WB 1 { m with C := fun x => lrate * m.C x }).B) ∧
    (lrate = 0 →
      (∀ i j c, i < ncols → j < nwa → c < nrows →
        (word2vecBwd nrows ncols nwa nwb WA WB lrate m).A (c + nrows * WA (j + i * nwa)) = 0) ∧
      (∀ i k c, i < ncols → k < nwb → c < nrows →
        (word2vecBwd nrows ncols nwa nwb WA WB lrate m).B
          (c + nrows * WB (k + i * nwb)) = 0)) := by
  refine ⟨word2vecBwd_scale nrows ncols nwa nwb WA WB lrate m _ rfl rfl rfl, fun h => ?_⟩
  exact ⟨fun i j c hi hj hc =>
      (word2vecBwd_A_clears nrows ncols nwa nwb WA WB lrate m (Or.inl h) _ c hc).1
        ⟨i, j, hi, hj, rfl⟩,
    fun i k c hi hk hc =>
      (word2vecBwd_B_clears nrows ncols nwa nwb WA WB lrate m (Or.inl h) _ c hc).1
        ⟨i, k, hi, hk, rfl⟩⟩

/-- C17 at one-column calls with `nrows = nwa = nwb = 1`, `B = [3]`: rate `2`
on `C = [5]` and rate `1` on `C = [10]` both give `A' = [30]`, and rate `0`
gives `A' = [0]`. -/
theorem word2vecBwd_lrate_times_C_witness :
    (word2vecBwd 1 1 1 1 (fun _ => 0) (fun _ => 0) 2
        (⟨fun _ => 7, fun _ => 3, fun _ => 5⟩ : Mem ℝ)).A =
      (word2vecBwd 1 1 1 1 (fun _ => 0) (fun _ => 0) 1
        { (⟨fun _ => 7, fun _ => 3, fun _ => 5⟩ : Mem ℝ) with
          C := fun x => 2 * (⟨fun _ => 7, fun _ => 3, fun _ => 5⟩ : Mem ℝ).C x }).A ∧
    (word2vecBwd 1 1 1 1 (fun _ => 0) (fun _ => 0) 0
        (⟨fun _ => 7, fun _ => 3, fun _ => 5⟩ : Mem ℝ)).A
        (0 + 1 * (fun _ : Nat => 0) (0 + 0 * 1)) = 0 ∧
    (word2vecBwd 1 1 1 1 (fun _ => 0) (fun _ => 0) 2
        (⟨fun _ => 7, fun _ => 3, fun _ => 5⟩ : Mem ℝ)).A 0 = 30 :=
  ⟨(word2vecBwd_lrate_times_C 1 1 1 1 (fun _ => 0) (fun _ => 0) 2
      (⟨fun _ => 7, fun _ => 3, fun _ => 5⟩ : Mem ℝ)).1.1,
    ((word2vecBwd_lrate_times_C 1 1 1 1 (fun _ => 0) (fun _ => 0) 0
      (⟨fun _ => 7, fun _ => 3, fun _ => 5⟩ : Mem ℝ)).2 rfl).1 0 0 0 (by decide) (by decide)
      (by decide),
    by norm_num [word2vecBwd, bwdColumn, bwdA, bwdB, bwdSlotA, bwdSlotB, zeroA, zeroB, axpyA,
      axpyB, forLoop, Function.update_apply]⟩

end Proofs

end BIDMach
